import Mathlib

/-!
# secchecker: the file selector `WalkMatch` and the build orchestrator `main`

A shallow embedding of `src/main.go`.

* `WalkMatch` (main.go 82-106) is translated line by line: its callback is
  `WalkMatch.walkFn`, the closure variable `matches` is the threaded state.
* The Go standard-library functions it calls (`filepath.Walk`, `filepath.Match`,
  `filepath.Base`, `filepath.Rel`, `filepath.Join`) are embedded in the namespace
  `filepath`, following the Unix build of package `path/filepath`.
* `main` (main.go 32-80) is translated to a function from the outcomes of its
  external calls (`World`) to the sequence of calls it performs (`Event`).

Conventions.

* The file system under the root is a value of `Node`: what `os.Lstat` and
  `readDirNames` report for the root and for everything below it, at the time of
  the walk.  The entries of a directory are kept in the order `readDirNames`
  returns them.
* A path handed to the callback is kept as the list of names that lead from the
  root to the entry (`[]` is the root itself).  `filepath.Join` adds a name,
  `filepath.Rel` renders the names separated by `/`, `filepath.Base` is the last
  name (for the root itself: the base name of the root argument, `FileTree.base`).
* Names and patterns are texts (`String`); `filepath.Match` works on the bytes of
  their UTF-8 encoding, as the Go strings do.
* The loops of `filepath.Match` run on a fuel that is set to the length of the
  pattern (of the chunk) plus one; `Match_fuel` and `matchChunk_fuel` show that
  the fuel never decides the result.
* `os.WriteFile` is embedded as far as it changes the tree (`os.WriteFile`); `main`
  itself only sees its error.
-/

namespace Secchecker

/-! ## Errors, file modes, the file system -/

/-- The `error` values that occur in the walk. -/
inductive Error where
  /-- Is `filepath.ErrBadPattern`. -/
  | ErrBadPattern
  /-- Is `filepath.SkipDir`. -/
  | SkipDir
  /-- Is `filepath.SkipAll`. -/
  | SkipAll
  /-- An `*fs.PathError` of `os.Lstat` or of reading a directory, with its errno. -/
  | os (errno : Nat)
  /-- The error of `filepath.Rel` ("Rel: can't make ... relative to ..."). -/
  | rel
  /-- A nil `os.FileInfo` was dereferenced (a run-time panic, not a returned error). -/
  | nilInfo
  deriving DecidableEq, Repr

/-- The kinds of directory entry that are not directories. -/
inductive FileKind where
  | regular
  | symlink
  | namedPipe
  | socket
  | device
  deriving DecidableEq, Repr

/-- The type bits of an `fs.FileMode`. -/
inductive FileMode where
  | dir
  | nondir (kind : FileKind)
  deriving DecidableEq, Repr

/-- An `os.FileInfo`, as far as the walk looks at it. -/
structure FileInfo where
  mode : FileMode
  deriving DecidableEq, Repr

/-- Is `info.IsDir()`. -/
def FileInfo.IsDir (info : FileInfo) : Bool :=
  match info.mode with
  | .dir => true
  | .nondir _ => false

/-- The file system at and below a path.
* `file k`: `lstat` succeeds and reports a non-directory of kind `k`;
* `dir entries`: `lstat` reports a directory and `readDirNames` returns the names
  of `entries`, in this order;
* `unreadable errno`: `lstat` reports a directory, `readDirNames` fails;
* `noStat errno`: `lstat` fails. -/
inductive Node where
  | file (kind : FileKind)
  | dir (entries : List (String × Node))
  | unreadable (errno : Nat)
  | noStat (errno : Nat)

instance : Inhabited Node := ⟨.dir []⟩

/-- The `os.FileInfo` that a successful `lstat` returns for a node. -/
def Node.info : Node → FileInfo
  | .file k => ⟨.nondir k⟩
  | _ => ⟨.dir⟩

/-- The root argument of `WalkMatch`: its base name and what is found there. -/
structure FileTree where
  base : String
  node : Node

/-- Names from the root down to an entry. -/
abbrev RelPath := List String

/-! ## Go strings and `unicode/utf8` -/

namespace utf8

/-- The constant `utf8.RuneError`. -/
def RuneError : Nat := 0xFFFD

/-- The UTF-8 encoding of a code point: the bytes a Go string holds for it. -/
def encode (n : Nat) : List Nat :=
  if n < 0x80 then [n]
  else if n < 0x800 then [0xC0 + n / 64, 0x80 + n % 64]
  else if n < 0x10000 then [0xE0 + n / 4096, 0x80 + n / 64 % 64, 0x80 + n % 64]
  else [0xF0 + n / 262144, 0x80 + n / 4096 % 64, 0x80 + n / 64 % 64, 0x80 + n % 64]

/-- Function `utf8.DecodeRuneInString`: the first rune of `s` and its width in
bytes; `(RuneError, 0)` for the empty string, `(RuneError, 1)` for an invalid
encoding.  The tables `first` and `acceptRanges` are written out as comparisons. -/
def DecodeRuneInString (s : List Nat) : Nat × Nat :=
  match s with
  | [] => (RuneError, 0)
  | s0 :: rest =>
    if s0 < 0x80 then (s0, 1)
    else if s0 < 0xC2 ∨ 0xF4 < s0 then (RuneError, 1)
    else
      let sz := if s0 < 0xE0 then 2 else if s0 < 0xF0 then 3 else 4
      let lo := if s0 = 0xE0 then 0xA0 else if s0 = 0xF0 then 0x90 else 0x80
      let hi := if s0 = 0xED then 0x9F else if s0 = 0xF4 then 0x8F else 0xBF
      if rest.length + 1 < sz then (RuneError, 1)
      else
        match rest with
        | [] => (RuneError, 1)
        | s1 :: rest1 =>
          if s1 < lo ∨ hi < s1 then (RuneError, 1)
          else if sz ≤ 2 then (s0 % 32 * 64 + s1 % 64, 2)
          else
            match rest1 with
            | [] => (RuneError, 1)
            | s2 :: rest2 =>
              if s2 < 0x80 ∨ 0xBF < s2 then (RuneError, 1)
              else if sz ≤ 3 then (s0 % 16 * 4096 + s1 % 64 * 64 + s2 % 64, 3)
              else
                match rest2 with
                | [] => (RuneError, 1)
                | s3 :: _ =>
                  if s3 < 0x80 ∨ 0xBF < s3 then (RuneError, 1)
                  else (s0 % 8 * 262144 + s1 % 64 * 4096 + s2 % 64 * 64 + s3 % 64, 4)

end utf8

/-- The bytes of the Go string that holds the text `s`. -/
def goBytes (s : String) : List Nat :=
  s.toList.flatMap (fun c => utf8.encode c.toNat)

namespace filepath

/-! ## `filepath.Match`

Patterns and names are Go strings, that is byte sequences.  The bytes that the
code tests for are `*` 42, `-` 45, `/` 47 (the `Separator`), `?` 63, `[` 91,
`\` 92, `]` 93, `^` 94. -/

/-- The leading `*` loop of `scanChunk`. -/
def dropStars : List Nat → List Nat
  | [] => []
  | c :: rest => if c = 42 then dropStars rest else c :: rest

/-- The `Scan` loop of `scanChunk`: the index at which the chunk ends. -/
def scanLen (inrange : Bool) : List Nat → Nat
  | [] => 0
  | c :: rest =>
    if c = 92 then
      match rest with
      | [] => 1
      | _ :: rest2 => 2 + scanLen inrange rest2
    else if c = 91 then 1 + scanLen true rest
    else if c = 93 then 1 + scanLen false rest
    else if c = 42 then (if inrange then 1 + scanLen inrange rest else 0)
    else 1 + scanLen inrange rest

/-- Function `scanChunk`: gets the next segment of the pattern, which is a
non-star string possibly preceded by a star. -/
def scanChunk (pattern : List Nat) : Bool × List Nat × List Nat :=
  let star := pattern.head? = some 42
  let p := dropStars pattern
  let i := scanLen false p
  (star, p.take i, p.drop i)

/-- Function `getEsc`: gets a possibly-escaped character from the chunk, for a
character class. -/
def getEsc (chunk : List Nat) : Except Error (Nat × List Nat) :=
  match chunk with
  | [] => .error .ErrBadPattern
  | c :: rest =>
    if c = 45 ∨ c = 93 then .error .ErrBadPattern
    else
      match (if c = 92 then rest else c :: rest) with
      | [] => .error .ErrBadPattern
      | b :: tl =>
        if (utf8.DecodeRuneInString (b :: tl)).1 = utf8.RuneError ∧
            (utf8.DecodeRuneInString (b :: tl)).2 = 1 then .error .ErrBadPattern
        else if (b :: tl).drop (utf8.DecodeRuneInString (b :: tl)).2 = [] then
          .error .ErrBadPattern
        else
          .ok ((utf8.DecodeRuneInString (b :: tl)).1,
            (b :: tl).drop (utf8.DecodeRuneInString (b :: tl)).2)

/-- The "parse all ranges" loop of `matchChunk`, for the rune `r` of the name:
whether a range held `r`, and the chunk after the closing bracket. -/
def parseRanges : Nat → List Nat → Nat → Bool → Nat → Except Error (Bool × List Nat)
  | 0, _, _, _, _ => .error .ErrBadPattern
  | fuel + 1, chunk, r, matched, nrange =>
    match chunk with
    | [] => .error .ErrBadPattern
    | c :: rest =>
      if c = 93 ∧ 0 < nrange then .ok (matched, rest)
      else
        match getEsc (c :: rest) with
        | .error e => .error e
        | .ok (lo, chunk1) =>
          match chunk1 with
          | [] => .error .ErrBadPattern
          | d :: rest1 =>
            if d = 45 then
              match getEsc rest1 with
              | .error e => .error e
              | .ok (hi, chunk2) =>
                parseRanges fuel chunk2 r (matched || (decide (lo ≤ r) && decide (r ≤ hi))) (nrange + 1)
            else
              parseRanges fuel (d :: rest1) r (matched || (decide (lo ≤ r) && decide (r ≤ lo))) (nrange + 1)

/-- The remainder `parseRanges` leaves, or its error, without the match flag. -/
def rangesShape (x : Except Error (Bool × List Nat)) : Except Error (List Nat) :=
  match x with
  | .error e => .error e
  | .ok (_, rest) => .ok rest

/-- The loop of `matchChunk`, with the flag `failed`.  Every round removes at
least one byte of the chunk. -/
def matchChunkLoop : Nat → List Nat → List Nat → Bool → List Nat × Bool × Option Error
  | 0, _, _, _ => ([], false, none)
  | fuel + 1, chunk, s, failed =>
    match chunk with
    | [] => if failed then ([], false, none) else (s, true, none)
    | c :: chunk1 =>
      let failed := failed || s.isEmpty
      if c = 91 then
        let r : Nat := if failed then 0 else (utf8.DecodeRuneInString s).1
        let s1 := if failed then s else s.drop (utf8.DecodeRuneInString s).2
        let negated := chunk1.head? = some 94
        let chunk2 := if negated then chunk1.tail else chunk1
        match parseRanges fuel chunk2 r false 0 with
        | .error e => ([], false, some e)
        | .ok (matched, chunk3) =>
          matchChunkLoop fuel chunk3 s1 (failed || (matched == decide negated))
      else if c = 63 then
        if failed then matchChunkLoop fuel chunk1 s true
        else
          matchChunkLoop fuel chunk1 (s.drop (utf8.DecodeRuneInString s).2)
            (decide (s.head? = some 47))
      else if c = 92 then
        match chunk1 with
        | [] => ([], false, some .ErrBadPattern)
        | e :: chunk2 =>
          if failed then matchChunkLoop fuel chunk2 s true
          else matchChunkLoop fuel chunk2 s.tail (decide (s.head? ≠ some e))
      else
        if failed then matchChunkLoop fuel chunk1 s true
        else matchChunkLoop fuel chunk1 s.tail (decide (s.head? ≠ some c))

/-- Function `matchChunk`: checks whether the chunk matches the beginning of `s`;
if so, returns the remainder of `s`. -/
def matchChunk (chunk s : List Nat) : List Nat × Bool × Option Error :=
  matchChunkLoop (chunk.length + 1) chunk s false

/-- The outcome of the "look for match skipping i+1 bytes" loop of `Match`. -/
inductive StarResult where
  /-- `continue Pattern` with the name replaced by the remainder. -/
  | next (name : List Nat)
  /-- `return false, err`. -/
  | bad (err : Error)
  /-- The loop ran out without a match. -/
  | none

/-- The loop `for i := 0; i < len(name) && name[i] != Separator; i++` of `Match`:
the chunk is tried at `name[i+1:]`, one byte further each round. -/
def starLoop (chunk pattern : List Nat) : List Nat → StarResult
  | [] => .none
  | c :: rest =>
    if c = 47 then .none
    else
      match matchChunk chunk rest with
      | (t, true, _) =>
        if pattern.isEmpty && !t.isEmpty then starLoop chunk pattern rest else .next t
      | (_, false, some e) => .bad e
      | (_, false, Option.none) => starLoop chunk pattern rest

/-- The `Pattern` loop of `Match`.  Every round removes at least one byte of the
pattern.  After a chunk that does not match the loop returns false with a nil
error, without a look at the rest of the pattern. -/
def matchLoop : Nat → List Nat → List Nat → Bool × Option Error
  | 0, _, _ => (false, none)
  | fuel + 1, pattern, name =>
    if pattern.isEmpty then (name.isEmpty, none)
    else
      match scanChunk pattern with
      | (star, chunk, rest) =>
        if star && chunk.isEmpty then (!name.contains 47, none)
        else
          match matchChunk chunk name with
          | (t, ok, err) =>
            if ok && (t.isEmpty || !rest.isEmpty) then matchLoop fuel rest t
            else if err.isSome then (false, err)
            else if star then
              match starLoop chunk rest name with
              | .next t1 => matchLoop fuel rest t1
              | .bad e => (false, some e)
              | .none => (false, none)
            else (false, none)

/-- Function `filepath.Match`: reports whether `name` matches the shell file name
pattern; the only possible error is `ErrBadPattern`. -/
def Match (pattern name : String) : Bool × Option Error :=
  matchLoop ((goBytes pattern).length + 1) (goBytes pattern) (goBytes name)

/-- The first malformed chunk of a pattern, if there is one: each chunk is run
through `matchChunk`, which reports a malformed chunk whatever text it is given. -/
def chunkError : Nat → List Nat → Option Error
  | 0, _ => none
  | fuel + 1, pattern =>
    if pattern.isEmpty then none
    else
      match scanChunk pattern with
      | (_, chunk, rest) =>
        match matchChunk chunk [] with
        | (_, _, some e) => some e
        | (_, _, none) => chunkError fuel rest

/-! ## Paths -/

/-- Function `filepath.Join` of a visited path and an entry name. -/
def Join (path : RelPath) (name : String) : RelPath :=
  path ++ [name]

/-- Function `filepath.Base` of a visited path; `rootBase` is the base name of the root. -/
def Base (rootBase : String) (path : RelPath) : String :=
  path.getLast?.getD rootBase

/-- Function `filepath.Rel` of the root and a visited path: `.` for the root
itself, else the names separated by `/`. -/
def Rel (path : RelPath) : Except Error String :=
  if path.isEmpty then .ok "."
  else .ok (String.mk (List.intercalate ['/'] (path.map String.toList)))

/-! ## `filepath.Walk` -/

/-- The type `filepath.WalkFunc`, with the state its closure updates. -/
abbrev WalkFunc (σ : Type) := σ → RelPath → Option FileInfo → Option Error → σ × Option Error

mutual
/-- Function `walk`: recursively descends `path`, calling `walkFn`. -/
def walk {σ : Type} (walkFn : WalkFunc σ) (path : RelPath) : Node → σ → σ × Option Error
  | .file k, s => walkFn s path (some ⟨.nondir k⟩) none
  | .unreadable errno, s => walkFn s path (some ⟨.dir⟩) (some (.os errno))
  | .noStat errno, s => walkFn s path none (some (.os errno))
  | .dir entries, s =>
    match walkFn s path (some ⟨.dir⟩) none with
    | (s1, some err1) => (s1, some err1)
    | (s1, none) => walkNames walkFn path entries s1
/-- The loop `for _, name := range names` of `walk`. -/
def walkNames {σ : Type} (walkFn : WalkFunc σ) (path : RelPath) :
    List (String × Node) → σ → σ × Option Error
  | [], s => (s, none)
  | (name, .noStat errno) :: rest, s =>
    match walkFn s (Join path name) none (some (.os errno)) with
    | (s1, some err) =>
      if err ≠ .SkipDir then (s1, some err) else walkNames walkFn path rest s1
    | (s1, none) => walkNames walkFn path rest s1
  | (name, child) :: rest, s =>
    match walk walkFn (Join path name) child s with
    | (s1, some err) =>
      if !child.info.IsDir || err ≠ .SkipDir then (s1, some err)
      else walkNames walkFn path rest s1
    | (s1, none) => walkNames walkFn path rest s1
end

/-- Function `filepath.Walk`: walks the file tree rooted at root, calling `fn`
for each file or directory in the tree, including root. -/
def Walk {σ : Type} (root : Node) (fn : WalkFunc σ) (s : σ) : σ × Option Error :=
  let r : σ × Option Error :=
    match root with
    | .noStat errno => fn s [] none (some (.os errno))
    | _ => walk fn [] root s
  if r.2 = some .SkipDir ∨ r.2 = some .SkipAll then (r.1, none) else r

end filepath

/-! ## `WalkMatch` (main.go 82-106) -/

/-- The function literal passed to `filepath.Walk` (main.go 84-101); the state
is the captured variable `matches` (here `matched`). -/
def WalkMatch.walkFn (root : FileTree) (pattern : String) : filepath.WalkFunc (List String) :=
  fun matched path info err =>
    match err with
    | some e => (matched, some e)
    | none =>
      match info with
      | none => (matched, some .nilInfo)
      | some info =>
        if info.IsDir then (matched, none)
        else
          match filepath.Match pattern (filepath.Base root.base path) with
          | (_, some e) => (matched, some e)
          | (true, none) =>
            match filepath.Rel path with
            | .error e => (matched, some e)
            | .ok r => (matched ++ [r], none)
          | (false, none) => (matched, none)

/-- Function `WalkMatch` (main.go 82-106). -/
def WalkMatch (root : FileTree) (pattern : String) : List String × Option Error :=
  match filepath.Walk root.node (WalkMatch.walkFn root pattern) [] with
  | (_, some err) => ([], some err)
  | (matched, none) => (matched, none)

/-! ## `main` (main.go 17-80) -/

/-- The constant `dockerfile` (main.go 17-30). -/
def dockerfile : String :=
  "\nFROM golang:latest\n\nWORKDIR /app\nENV GO111MODULE=on\n\nCOPY . ./\nRUN go mod download\n\n" ++
  "RUN go install github.com/securego/gosec/v2/cmd/gosec@latest\n" ++
  "RUN go install golang.org/x/vuln/cmd/govulncheck@latest\n" ++
  "RUN go get github.com/stripe/safesql\n\n" ++
  "CMD gosec ./... && govulncheck ./... && safesql ./..."

/-- The fields of `types.ImageBuildOptions` that `main` sets (`Context` is the
archive reader itself). -/
structure ImageBuildOptions where
  Tags : List String
  Dockerfile : String
  PullParent : Bool
  Labels : List (String × String)
  deriving DecidableEq, Repr

/-- What the calls of `main` to the outside return on one run.  `root` is the tree
under `*pathFlag` as the walk and the archiver find it, that is after the write
of step 1. -/
structure World where
  root : FileTree
  /-- The error of `os.WriteFile(*pathFlag+"/Dockerfile", ...)`. -/
  writeFile : Option Error
  /-- The error of `client.NewClientWithOpts()`. -/
  newClient : Option Error
  /-- The error of `archive.TarWithOptions`, by the list it is given as `IncludeFiles`. -/
  tar : List String → Option Error
  /-- The error of `cli.ImageBuild`. -/
  imageBuild : Option Error
  /-- The error of `io.Copy(os.Stdout, imageBuildResponse.Body)`. -/
  copy : Option Error

/-- The calls `main` makes, in the order it makes them. -/
inductive Event where
  /-- Is `os.WriteFile(*pathFlag+"/"+name, data, perm)`. -/
  | WriteFile (name : String) (data : String) (perm : Nat)
  /-- Is `fmt.Printf(format, err)`. -/
  | Printf (format : String) (err : Error)
  /-- Is `client.NewClientWithOpts()`. -/
  | NewClientWithOpts
  /-- Is `WalkMatch(*pathFlag, pattern)`. -/
  | WalkMatch (pattern : String)
  /-- Is `archive.TarWithOptions(*pathFlag, &archive.TarOptions{IncludeFiles: ...})`. -/
  | TarWithOptions (IncludeFiles : List String)
  /-- Is `cli.ImageBuild(ctx, reader, options)`. -/
  | ImageBuild (options : ImageBuildOptions)
  /-- Is `io.Copy(os.Stdout, imageBuildResponse.Body)`. -/
  | Copy
  /-- The deferred `imageBuildResponse.Body.Close()`. -/
  | Close
  /-- Is `log.Fatal(err, msg)`: prints and exits with status 1; deferred calls do not run. -/
  | Fatal (err : Error) (msg : String)
  deriving DecidableEq, Repr

/-- The build options of main.go 65-71. -/
def buildOptions : ImageBuildOptions :=
  { Tags := ["secchecker"], Dockerfile := "Dockerfile", PullParent := true,
    Labels := [("custom", "test")] }

/-- The slice appended to `files` in main.go 56. -/
def fixedFiles : List String := ["go.mod", "go.sum", "Dockerfile"]

/-- Function `main` (main.go 32-80), from main.go 40 on: the calls it makes
(`flag.String` never returns nil, so the guard of main.go 36-38 does not fire). -/
def main (w : World) : List Event :=
  let t1 : List Event :=
    Event.WriteFile "Dockerfile" dockerfile 0o777 ::
      (match w.writeFile with
        | some err => [Event.Printf "Unable to write file: %v" err]
        | none => [])
  match w.newClient with
  | some err => t1 ++ [.NewClientWithOpts, .Fatal err " :unable to init client"]
  | none =>
    let t2 := t1 ++ [.NewClientWithOpts, .WalkMatch "*.go"]
    match WalkMatch w.root "*.go" with
    | (_, some err) => t2 ++ [.Fatal err " :unable to walk files"]
    | (files, none) =>
      let t3 := t2 ++ [.TarWithOptions (files ++ fixedFiles)]
      match w.tar (files ++ fixedFiles) with
      | some err => t3 ++ [.Fatal err " :unable to create tar"]
      | none =>
        let t4 := t3 ++ [.ImageBuild buildOptions]
        match w.imageBuild with
        | some err => t4 ++ [.Fatal err " :unable to build docker image"]
        | none =>
          match w.copy with
          | some err => t4 ++ [.Copy, .Fatal err " :unable to read image build response"]
          | none => t4 ++ [.Copy, .Close]

/-! ## The write of step 1 -/

namespace os

/-- The order of Go strings: byte by byte. -/
def bytesLess : List Nat → List Nat → Bool
  | _, [] => false
  | [], _ :: _ => true
  | a :: as, b :: bs => a < b || (a == b && bytesLess as bs)

/-- A new entry is put into a directory listing at its place in name order. -/
def insertEntry (name : String) (n : Node) : List (String × Node) → List (String × Node)
  | [] => [(name, n)]
  | c :: rest =>
    if bytesLess (goBytes name) (goBytes c.1) then (name, n) :: c :: rest
    else c :: insertEntry name n rest

/-- Function `os.WriteFile(dir+"/"+name, data, perm)`, as far as the tree shows it:
the directory afterwards and the error.  The file is opened with
`O_WRONLY|O_CREATE|O_TRUNC`.
* `dir` is no directory or cannot be reached: the call fails (`ENOTDIR` 20, or the
  errno of `lstat`);
* the name is taken by a directory: the call fails (`EISDIR` 21);
* the name is taken by an entry that is no directory: the entry is written to and
  stays what it is, unless the system refuses (`ext`);
* the name is free: a regular file is created, unless the system refuses (`ext`);
* `dir` cannot be listed: the system decides (`ext`), the tree shows nothing. -/
def WriteFile (dir : Node) (name : String) (ext : Option Error) : Node × Option Error :=
  match dir with
  | .file k => (.file k, some (.os 20))
  | .noStat errno => (.noStat errno, some (.os errno))
  | .unreadable errno => (.unreadable errno, ext)
  | .dir entries =>
    match entries.find? (fun c => c.1 == name) with
    | some (_, .file _) => (.dir entries, ext)
    | some (_, .dir _) => (.dir entries, some (.os 21))
    | some (_, .unreadable _) => (.dir entries, some (.os 21))
    | some (_, .noStat errno) => (.dir entries, some (.os errno))
    | none =>
      match ext with
      | some err => (.dir entries, some err)
      | none => (.dir (insertEntry name (.file .regular) entries), none)

end os

/-! ## The vocabulary of the specification -/

mutual
/-- Every entry at and below a node, each with its path, in depth-first order;
`path` is the path of the node itself. -/
def Node.entriesFrom (path : RelPath) : Node → List (RelPath × Node)
  | .dir entries => (path, .dir entries) :: Node.entriesOf path entries
  | .file k => [(path, .file k)]
  | .unreadable errno => [(path, .unreadable errno)]
  | .noStat errno => [(path, .noStat errno)]
/-- The entries at and below the members of a directory listing. -/
def Node.entriesOf (path : RelPath) : List (String × Node) → List (RelPath × Node)
  | [] => []
  | (name, child) :: rest =>
    Node.entriesFrom (path ++ [name]) child ++ Node.entriesOf path rest
end

/-- Every entry of a tree, the root included, each with its path from the root. -/
def FileTree.entries (t : FileTree) : List (RelPath × Node) :=
  t.node.entriesFrom []

/-- The entry is not a directory: `lstat` succeeds and `IsDir()` is false. -/
def Node.isNonDir : Node → Bool
  | .file _ => true
  | _ => false

/-- The entry is a regular file. -/
def Node.isRegular : Node → Bool
  | .file .regular => true
  | _ => false

/-- The entry is a directory (readable or not). -/
def Node.isDirectory : Node → Bool
  | .dir _ => true
  | .unreadable _ => true
  | _ => false

/-- The entry is where a traversal fails: `lstat` or the directory read fails. -/
def Node.isFailure : Node → Bool
  | .unreadable _ => true
  | .noStat _ => true
  | _ => false

/-- The errno of a failing entry. -/
def Node.errno? : Node → Option Nat
  | .unreadable errno => some errno
  | .noStat errno => some errno
  | _ => none

/-- The root-relative path string of an entry (`filepath.Rel` without its error). -/
def relOf (path : RelPath) : String :=
  if path.isEmpty then "."
  else String.mk (List.intercalate ['/'] (path.map String.toList))

/-- The whole tree can be read: no `lstat` and no directory read fails. -/
def FileTree.Readable (t : FileTree) : Prop :=
  ∀ e ∈ t.entries, e.2.isFailure = false

instance (t : FileTree) : Decidable t.Readable := by
  unfold FileTree.Readable
  infer_instance

/-- The pattern is valid for `filepath.Match`: it never reports an error. -/
def ValidPattern (pattern : String) : Prop :=
  ∀ name : String, (filepath.Match pattern name).2 = none

/-- The pattern is syntactically invalid: one of its chunks is malformed. -/
def InvalidPattern (pattern : String) : Prop :=
  filepath.chunkError ((goBytes pattern).length + 1) (goBytes pattern) ≠ none

instance (pattern : String) : Decidable (InvalidPattern pattern) := by
  unfold InvalidPattern
  infer_instance

/-- The base name of the entry at `path` matches the pattern. -/
def FileTree.matchesAt (t : FileTree) (pattern : String) (path : RelPath) : Bool :=
  (filepath.Match pattern (filepath.Base t.base path)).1

/-- The walk selects the entry: it is not a directory and its base name matches. -/
def FileTree.selects (t : FileTree) (pattern : String) (e : RelPath × Node) : Bool :=
  e.2.isNonDir && t.matchesAt pattern e.1

/-- The names `readDirNames` returns for a directory (none for other entries). -/
def Node.names : Node → List String
  | .dir entries => entries.map Prod.fst
  | _ => []

/-- The names in a directory listing are pairwise different and hold no `/`, at
every directory at or below the node. -/
def Node.WellFormed (n : Node) : Prop :=
  ∀ e ∈ n.entriesFrom [], e.2.names.Nodup ∧ ∀ name ∈ e.2.names, '/' ∉ name.toList

instance (n : Node) : Decidable n.WellFormed := by
  unfold Node.WellFormed
  infer_instance

/-- The tree is one a file system can hold: in every directory the names are
pairwise different and hold no `/`. -/
def FileTree.WellFormed (t : FileTree) : Prop :=
  t.node.WellFormed

instance (t : FileTree) : Decidable t.WellFormed := by
  unfold FileTree.WellFormed
  infer_instance

/-- The string `r` lies under the directory whose root-relative path is `d`. -/
def liesUnder (d r : String) : Bool :=
  (d.toList ++ ['/']).isPrefixOf r.toList

/-! ## The walk as one pass over the entries -/

/-- The call of the callback that `filepath.Walk` makes for one entry. -/
def callOf {σ : Type} (fn : filepath.WalkFunc σ) (e : RelPath × Node) (s : σ) : σ × Option Error :=
  match e.2 with
  | .file k => fn s e.1 (some ⟨.nondir k⟩) none
  | .dir _ => fn s e.1 (some ⟨.dir⟩) none
  | .unreadable errno => fn s e.1 (some ⟨.dir⟩) (some (.os errno))
  | .noStat errno => fn s e.1 none (some (.os errno))

/-- The callback is called for the entries one after the other, up to the first error. -/
def visitAll {σ : Type} (fn : filepath.WalkFunc σ) : List (RelPath × Node) → σ → σ × Option Error
  | [], s => (s, none)
  | e :: rest, s =>
    match callOf fn e s with
    | (s1, some err) => (s1, some err)
    | (s1, none) => visitAll fn rest s1


/-- The callback never asks to skip (`SkipDir`, `SkipAll`) in a call that `filepath.Walk`
makes. -/
def NoSkip {σ : Type} (fn : filepath.WalkFunc σ) : Prop :=
  ∀ s path info err s1 e, (err = none ∨ ∃ errno, err = some (.os errno)) →
    fn s path info err = (s1, some e) → e ≠ .SkipDir ∧ e ≠ .SkipAll

/-! ## Sample trees and runs -/

/-- Scenario A: `main.go`, `util/helper.go`, `go.mod`, `go.sum`, and the `Dockerfile`
that step 1 wrote. -/
def treeA : FileTree :=
  ⟨"proj", .dir [("Dockerfile", .file .regular), ("go.mod", .file .regular),
    ("go.sum", .file .regular), ("main.go", .file .regular),
    ("util", .dir [("helper.go", .file .regular)])]⟩

/-- Scenario B: no `.go` file; only the `Dockerfile` of step 1 and a text file. -/
def treeB : FileTree :=
  ⟨"proj", .dir [("Dockerfile", .file .regular), ("README.md", .file .regular)]⟩

/-- A root whose only entry is a symbolic link named `link.go`. -/
def treeSymlink : FileTree :=
  ⟨"proj", .dir [("link.go", .file .symlink)]⟩

/-- A root that holds directories only. -/
def treeDirsOnly : FileTree :=
  ⟨"proj", .dir [("docs", .dir []), ("pkg", .dir [("internal", .dir [])])]⟩

/-- A root with a source file and, later in the walk, a directory that cannot be
read (errno 13, `EACCES`). -/
def treeLocked : FileTree :=
  ⟨"proj", .dir [("a.go", .file .regular), ("z", .unreadable 13)]⟩

/-- A root directory that cannot be read. -/
def treeNoAccess : FileTree :=
  ⟨"proj", .unreadable 13⟩

/-- A tree with a directory whose own name matches `*.go`. -/
def treeNested : FileTree :=
  ⟨"proj", .dir [("cmd", .dir [("main.go", .file .regular), ("notes.txt", .file .regular)]),
    ("gen.go", .dir [("x.go", .file .regular)]), ("main.go", .file .regular)]⟩

/-- A root whose only entry is the regular file `b`. -/
def treeOnlyB : FileTree :=
  ⟨"proj", .dir [("b", .file .regular)]⟩

/-- A readable root with a text file and a directory that cannot be read. -/
def treeLockedDocs : FileTree :=
  ⟨"proj", .dir [("README.md", .file .regular), ("z", .unreadable 13)]⟩

/-- The run in which every external call succeeds. -/
def quietWorld (root : FileTree) : World :=
  { root := root, writeFile := none, newClient := none, tar := fun _ => none,
    imageBuild := none, copy := none }

/-- The run in which only the write of the Dockerfile fails (errno 13). -/
def writeFailsWorld (root : FileTree) : World :=
  { root := root, writeFile := some (.os 13), newClient := none, tar := fun _ => none,
    imageBuild := none, copy := none }

namespace filepath

/-! ## The only error of `filepath.Match` is `ErrBadPattern` -/

theorem getEsc_error {chunk : List Nat} {e : Error} (h : getEsc chunk = .error e) :
    e = .ErrBadPattern := by
  unfold getEsc at h
  cases chunk with
  | nil => simp at h; exact h.symm
  | cons c rest =>
    simp only at h
    split at h
    · cases h; rfl
    · split at h
      · cases h; rfl
      · split at h
        · cases h; rfl
        · split at h
          · cases h; rfl
          · cases h

theorem parseRanges_error : ∀ (fuel : Nat) (chunk : List Nat) (r : Nat) (m : Bool) (n : Nat)
    (e : Error), parseRanges fuel chunk r m n = .error e → e = .ErrBadPattern := by
  intro fuel
  induction fuel with
  | zero => intro chunk r m n e h; simp [parseRanges] at h; exact h.symm
  | succ fuel ih =>
    intro chunk r m n e h
    unfold parseRanges at h
    split at h
    · cases h; rfl
    · split at h
      · cases h
      · split at h
        · rename_i e1 he1
          cases h
          exact getEsc_error he1
        · split at h
          · cases h; rfl
          · split at h
            · split at h
              · rename_i e2 he2
                cases h
                exact getEsc_error he2
              · exact ih _ _ _ _ _ h
            · exact ih _ _ _ _ _ h

theorem matchChunkLoop_error : ∀ (fuel : Nat) (chunk s : List Nat) (failed : Bool) (e : Error),
    (matchChunkLoop fuel chunk s failed).2.2 = some e → e = .ErrBadPattern := by
  intro fuel
  induction fuel with
  | zero => intro chunk s failed e h; simp [matchChunkLoop] at h
  | succ fuel ih =>
    intro chunk s failed e h
    unfold matchChunkLoop at h
    split at h
    · split at h <;> simp at h
    · simp only at h
      split at h
      · split at h
        · rename_i e1 he1
          simp at h
          subst h
          exact parseRanges_error _ _ _ _ _ _ he1
        · exact ih _ _ _ _ h
      · split at h
        · split at h <;> exact ih _ _ _ _ h
        · split at h
          · split at h
            · simp at h; exact h.symm
            · split at h <;> exact ih _ _ _ _ h
          · split at h <;> exact ih _ _ _ _ h

theorem matchChunk_error {chunk s : List Nat} {e : Error}
    (h : (matchChunk chunk s).2.2 = some e) : e = .ErrBadPattern :=
  matchChunkLoop_error _ _ _ _ _ h

theorem starLoop_bad (chunk pattern : List Nat) : ∀ (name : List Nat) (e : Error),
    starLoop chunk pattern name = .bad e → e = .ErrBadPattern := by
  intro name
  induction name with
  | nil => intro e h; simp [starLoop] at h
  | cons c rest ih =>
    intro e h
    unfold starLoop at h
    split at h
    · cases h
    · split at h
      · split at h
        · exact ih e h
        · cases h
      · rename_i e1 he1
        cases h
        exact matchChunk_error (by rw [he1])
      · exact ih e h

theorem matchLoop_error : ∀ (fuel : Nat) (pattern name : List Nat) (e : Error),
    (matchLoop fuel pattern name).2 = some e → e = .ErrBadPattern := by
  intro fuel
  induction fuel with
  | zero => intro pattern name e h; simp [matchLoop] at h
  | succ fuel ih =>
    intro pattern name e h
    unfold matchLoop at h
    split at h
    · simp at h
    · split at h
      split at h
      · simp at h
      · split at h
        rename_i t ok err hmc
        split at h
        · exact ih _ _ _ h
        · split at h
          · simp only at h
            exact matchChunk_error (by rw [hmc]; exact h)
          · split at h
            · split at h
              · exact ih _ _ _ h
              · rename_i e1 he1
                simp at h
                subst h
                exact starLoop_bad _ _ _ _ he1
              · simp at h
            · simp at h

/-- The only error `filepath.Match` returns is `ErrBadPattern`. -/
theorem Match_error {pattern name : String} {e : Error}
    (h : (Match pattern name).2 = some e) : e = .ErrBadPattern :=
  matchLoop_error _ _ _ _ h

end filepath

namespace filepath

/-! ## A malformed chunk is reported whatever the text -/

theorem parseRanges_shape : ∀ (fuel : Nat) (chunk : List Nat) (r r2 : Nat) (m m2 : Bool) (n : Nat),
    rangesShape (parseRanges fuel chunk r m n) = rangesShape (parseRanges fuel chunk r2 m2 n) := by
  intro fuel
  induction fuel with
  | zero => intro chunk r r2 m m2 n; simp [parseRanges]
  | succ fuel ih =>
    intro chunk r r2 m m2 n
    unfold parseRanges
    cases chunk with
    | nil => rfl
    | cons c rest =>
      simp only
      by_cases hc : c = 93 ∧ 0 < n
      · simp only [hc, and_self, if_true, rangesShape]
      · simp only [hc, if_false]
        cases hg : getEsc (c :: rest) with
        | error e => rfl
        | ok v =>
          rcases v with ⟨lo, chunk1⟩
          simp only
          cases chunk1 with
          | nil => rfl
          | cons d rest1 =>
            simp only
            by_cases hd : d = 45
            · simp only [hd, if_true]
              cases hg2 : getEsc rest1 with
              | error e => rfl
              | ok v2 =>
                rcases v2 with ⟨hi, chunk2⟩
                exact ih _ _ _ _ _ _
            · simp only [hd, if_false]
              exact ih _ _ _ _ _ _

theorem matchChunkLoop_error_indep : ∀ (fuel : Nat) (chunk s s2 : List Nat) (f f2 : Bool),
    (matchChunkLoop fuel chunk s f).2.2 = (matchChunkLoop fuel chunk s2 f2).2.2 := by
  intro fuel
  induction fuel with
  | zero => intro chunk s s2 f f2; simp [matchChunkLoop]
  | succ fuel ih =>
    intro chunk s s2 f f2
    cases chunk with
    | nil =>
      unfold matchChunkLoop
      simp only
      split <;> split <;> rfl
    | cons c chunk1 =>
      unfold matchChunkLoop
      simp only
      by_cases h1 : c = 91
      · simp only [h1, if_true]
        have hs := parseRanges_shape fuel
          (if chunk1.head? = some 94 then chunk1.tail else chunk1)
          (if (f || s.isEmpty) = true then 0 else (utf8.DecodeRuneInString s).1)
          (if (f2 || s2.isEmpty) = true then 0 else (utf8.DecodeRuneInString s2).1)
          false false 0
        revert hs
        cases parseRanges fuel (if chunk1.head? = some 94 then chunk1.tail else chunk1)
          (if (f || s.isEmpty) = true then 0 else (utf8.DecodeRuneInString s).1) false 0 with
        | error e =>
          cases parseRanges fuel (if chunk1.head? = some 94 then chunk1.tail else chunk1)
            (if (f2 || s2.isEmpty) = true then 0 else (utf8.DecodeRuneInString s2).1) false 0 with
          | error e2 => intro hs; simp only [rangesShape, Except.error.injEq] at hs; simp [hs]
          | ok v2 => intro hs; simp [rangesShape] at hs
        | ok v =>
          cases parseRanges fuel (if chunk1.head? = some 94 then chunk1.tail else chunk1)
            (if (f2 || s2.isEmpty) = true then 0 else (utf8.DecodeRuneInString s2).1) false 0 with
          | error e2 => intro hs; simp [rangesShape] at hs
          | ok v2 =>
            intro hs
            simp only [rangesShape, Except.ok.injEq] at hs
            simp only [hs]
            exact ih _ _ _ _ _
      · simp only [h1, if_false]
        by_cases h2 : c = 63
        · simp only [h2, if_true]
          split <;> split <;> exact ih _ _ _ _ _
        · simp only [h2, if_false]
          by_cases h3 : c = 92
          · simp only [h3, if_true]
            cases chunk1 with
            | nil => rfl
            | cons e chunk2 =>
              simp only
              split <;> split <;> exact ih _ _ _ _ _
          · simp only [h3, if_false]
            split <;> split <;> exact ih _ _ _ _ _

theorem matchChunk_error_indep (chunk s s2 : List Nat) :
    (matchChunk chunk s).2.2 = (matchChunk chunk s2).2.2 :=
  matchChunkLoop_error_indep _ _ _ _ _ _

theorem matchChunkLoop_ok : ∀ (fuel : Nat) (chunk s : List Nat) (f : Bool),
    (matchChunkLoop fuel chunk s f).2.1 = true → (matchChunkLoop fuel chunk s f).2.2 = none := by
  intro fuel
  induction fuel with
  | zero => intro chunk s f h; simp [matchChunkLoop] at h
  | succ fuel ih =>
    intro chunk s f
    unfold matchChunkLoop
    split
    · split <;> simp
    · simp only
      split
      · split
        · simp
        · exact ih _ _ _
      · split
        · split <;> exact ih _ _ _
        · split
          · split
            · simp
            · split <;> exact ih _ _ _
          · split <;> exact ih _ _ _

theorem matchChunk_ok {chunk s : List Nat} (h : (matchChunk chunk s).2.1 = true) :
    (matchChunk chunk s).2.2 = none :=
  matchChunkLoop_ok _ _ _ _ h

theorem dropStars_head (p : List Nat) : (dropStars p).head? ≠ some 42 := by
  induction p with
  | nil => simp [dropStars]
  | cons c rest ih =>
    unfold dropStars
    split
    · exact ih
    · rename_i hc
      simpa using hc

theorem scanLen_pos (b : Bool) (c : Nat) (rest : List Nat) (hc : c ≠ 42) :
    0 < scanLen b (c :: rest) := by
  unfold scanLen
  split
  · split <;> omega
  · split
    · omega
    · split
      · omega
      · omega

theorem starLoop_not_bad (chunk pattern : List Nat)
    (hc : ∀ s, (matchChunk chunk s).2.2 = none) :
    ∀ (name : List Nat) (e : Error), starLoop chunk pattern name ≠ .bad e := by
  intro name
  induction name with
  | nil => intro e; simp [starLoop]
  | cons c rest ih =>
    intro e
    unfold starLoop
    split
    · simp
    · split
      · split
        · exact ih e
        · simp
      · rename_i e1 he1
        have := hc rest
        rw [he1] at this
        simp at this
      · exact ih e

theorem chunkError_succ (fuel : Nat) (pattern : List Nat) :
    chunkError (fuel + 1) pattern =
      if pattern.isEmpty then none
      else
        match scanChunk pattern with
        | (_, chunk, rest) =>
          match matchChunk chunk [] with
          | (_, _, some e) => some e
          | (_, _, none) => chunkError fuel rest := rfl

theorem matchLoop_succ (fuel : Nat) (pattern name : List Nat) :
    matchLoop (fuel + 1) pattern name =
      if pattern.isEmpty then (name.isEmpty, none)
      else
        match scanChunk pattern with
        | (star, chunk, rest) =>
          if star && chunk.isEmpty then (!name.contains 47, none)
          else
            match matchChunk chunk name with
            | (t, ok, err) =>
              if ok && (t.isEmpty || !rest.isEmpty) then matchLoop fuel rest t
              else if err.isSome then (false, err)
              else if star then
                match starLoop chunk rest name with
                | .next t1 => matchLoop fuel rest t1
                | .bad e => (false, some e)
                | .none => (false, none)
              else (false, none) := rfl

/-- A pattern without a malformed chunk never makes `Match` report an error. -/
theorem matchLoop_noerr : ∀ (fuel : Nat) (pattern name : List Nat),
    chunkError fuel pattern = none → (matchLoop fuel pattern name).2 = none := by
  intro fuel
  induction fuel with
  | zero => intro pattern name _; simp [matchLoop]
  | succ fuel ih =>
    intro pattern name hs
    rw [chunkError_succ] at hs
    rw [matchLoop_succ]
    by_cases hp : pattern.isEmpty = true
    · simp [hp]
    · simp only [hp, Bool.false_eq_true, if_false] at hs ⊢
      rcases hsc : scanChunk pattern with ⟨star, chunk, rest⟩
      rw [hsc] at hs
      simp only at hs ⊢
      have hindep := matchChunk_error_indep chunk name []
      rcases hmc0 : matchChunk chunk [] with ⟨t0, ok0, err0⟩
      rw [hmc0] at hs hindep
      cases err0 with
      | some e => simp at hs
      | none =>
        simp only at hs hindep
        have hnone : ∀ s, (matchChunk chunk s).2.2 = none := by
          intro s
          have := matchChunk_error_indep chunk s []
          rw [this, hmc0]
        by_cases h1 : (star && chunk.isEmpty) = true
        · simp only [h1, if_true]
        · simp only [h1, Bool.false_eq_true, if_false]
          rcases hmc : matchChunk chunk name with ⟨t, ok, err⟩
          rw [hmc] at hindep
          simp only at hindep
          subst hindep
          simp only [Option.isSome_none, Bool.false_eq_true, if_false]
          by_cases h2 : (ok && (t.isEmpty || !rest.isEmpty)) = true
          · simp only [h2, if_true]
            exact ih _ _ hs
          · simp only [h2, Bool.false_eq_true, if_false]
            by_cases h4 : star = true
            · simp only [h4, if_true]
              cases hst : starLoop chunk rest name with
              | next t1 => exact ih _ _ hs
              | bad e => exact absurd hst (starLoop_not_bad chunk rest hnone name e)
              | none => rfl
            · simp only [h4, Bool.false_eq_true, if_false]

end filepath

/-- A pattern that is not syntactically invalid is valid for `Match`. -/
theorem validPattern_of_wellFormed (pattern : String) (h : ¬ InvalidPattern pattern) :
    ValidPattern pattern := by
  intro name
  unfold InvalidPattern at h
  exact filepath.matchLoop_noerr _ _ _ (not_not.1 h)

/-- When `Match` reports an error the pattern is syntactically invalid. -/
theorem invalidPattern_of_error {pattern name : String}
    (h : (filepath.Match pattern name).2 ≠ none) : InvalidPattern pattern := by
  intro hs
  exact h (filepath.matchLoop_noerr _ _ _ hs)

namespace filepath

/-! ## The fuel of the loops of `Match` never runs out -/

theorem decode_width_pos (b : Nat) (tl : List Nat) :
    1 ≤ (utf8.DecodeRuneInString (b :: tl)).2 := by
  unfold utf8.DecodeRuneInString
  simp only
  by_cases h0 : b < 0x80
  · simp only [h0, if_true]; exact Nat.le_refl _
  · simp only [h0, if_false]
    by_cases h1 : b < 0xC2 ∨ 0xF4 < b
    · simp only [h1, if_true]; exact Nat.le_refl _
    · simp only [h1, if_false]
      generalize (if b < 0xE0 then 2 else if b < 0xF0 then 3 else 4) = sz
      generalize (if b = 0xE0 then 0xA0 else if b = 0xF0 then 0x90 else 0x80) = lo
      generalize (if b = 0xED then 0x9F else if b = 0xF4 then 0x8F else 0xBF) = hi
      split
      · exact Nat.le_refl _
      · cases tl with
        | nil => exact Nat.le_refl _
        | cons s1 rest1 =>
          simp only
          split
          · exact Nat.le_refl _
          · split
            · exact Nat.le_succ _
            · cases rest1 with
              | nil => exact Nat.le_refl _
              | cons s2 rest2 =>
                simp only
                split
                · exact Nat.le_refl _
                · split
                  · omega
                  · cases rest2 with
                    | nil => exact Nat.le_refl _
                    | cons s3 rest3 =>
                      simp only
                      split
                      · exact Nat.le_refl _
                      · omega

theorem getEsc_length {chunk : List Nat} {r : Nat} {rest : List Nat}
    (h : getEsc chunk = .ok (r, rest)) : rest.length < chunk.length := by
  unfold getEsc at h
  cases chunk with
  | nil => simp at h
  | cons c tl =>
    simp only at h
    split at h
    · cases h
    · split at h
      · cases h
      · rename_i b tl2 heq
        split at h
        · cases h
        · split at h
          · cases h
          · simp only [Except.ok.injEq, Prod.mk.injEq] at h
            obtain ⟨_, rfl⟩ := h
            have hw := decode_width_pos b tl2
            have hle : (b :: tl2).length ≤ (c :: tl).length := by
              rw [← heq]
              split
              · simp
              · simp
            rw [List.length_drop]
            simp only [List.length_cons] at hle ⊢
            omega

theorem parseRanges_fuel : ∀ (f1 f2 : Nat) (chunk : List Nat) (r : Nat) (m : Bool) (n : Nat),
    chunk.length ≤ f1 → chunk.length ≤ f2 →
    parseRanges f1 chunk r m n = parseRanges f2 chunk r m n := by
  intro f1
  induction f1 with
  | zero =>
    intro f2 chunk r m n h1 _
    have : chunk = [] := List.length_eq_zero.1 (Nat.le_zero.1 h1)
    subst this
    cases f2 <;> simp [parseRanges]
  | succ k ih =>
    intro f2 chunk r m n h1 h2
    cases f2 with
    | zero =>
      have : chunk = [] := List.length_eq_zero.1 (Nat.le_zero.1 h2)
      subst this
      simp [parseRanges]
    | succ j =>
      cases chunk with
      | nil => simp [parseRanges]
      | cons c rest =>
        simp only [parseRanges]
        split
        · rfl
        · cases hg : getEsc (c :: rest) with
          | error e => rfl
          | ok v =>
            rcases v with ⟨lo, chunk1⟩
            have hl1 := getEsc_length hg
            simp only [List.length_cons] at hl1 h1 h2
            cases chunk1 with
            | nil => rfl
            | cons d rest1 =>
              simp only [List.length_cons] at hl1
              simp only
              split
              · cases hg2 : getEsc rest1 with
                | error e => rfl
                | ok v2 =>
                  rcases v2 with ⟨hi, chunk2⟩
                  have hl2 := getEsc_length hg2
                  exact ih j chunk2 _ _ _ (by omega) (by omega)
              · exact ih j (d :: rest1) _ _ _ (by simp only [List.length_cons]; omega)
                  (by simp only [List.length_cons]; omega)

theorem parseRanges_length : ∀ (fuel : Nat) (chunk : List Nat) (r : Nat) (m : Bool) (n : Nat)
    (b : Bool) (rest : List Nat),
    parseRanges fuel chunk r m n = .ok (b, rest) → rest.length < chunk.length := by
  intro fuel
  induction fuel with
  | zero => intro chunk r m n b rest h; simp [parseRanges] at h
  | succ k ih =>
    intro chunk r m n b rest h
    cases chunk with
    | nil => simp [parseRanges] at h
    | cons c tl =>
      simp only [parseRanges] at h
      split at h
      · simp only [Except.ok.injEq, Prod.mk.injEq] at h
        obtain ⟨_, rfl⟩ := h
        simp
      · cases hg : getEsc (c :: tl) with
        | error e => rw [hg] at h; cases h
        | ok v =>
          rcases v with ⟨lo, chunk1⟩
          rw [hg] at h
          have hl1 := getEsc_length hg
          cases chunk1 with
          | nil => cases h
          | cons d rest1 =>
            simp only at h
            split at h
            · cases hg2 : getEsc rest1 with
              | error e => rw [hg2] at h; cases h
              | ok v2 =>
                rcases v2 with ⟨hi, chunk2⟩
                rw [hg2] at h
                have hl2 := getEsc_length hg2
                have := ih _ _ _ _ _ _ h
                simp only [List.length_cons] at hl1 ⊢
                omega
            · have := ih _ _ _ _ _ _ h
              omega

theorem matchChunkLoop_fuel : ∀ (f1 f2 : Nat) (chunk s : List Nat) (failed : Bool),
    chunk.length < f1 → chunk.length < f2 →
    matchChunkLoop f1 chunk s failed = matchChunkLoop f2 chunk s failed := by
  intro f1
  induction f1 with
  | zero => intro f2 chunk s failed h1 _; omega
  | succ k ih =>
    intro f2 chunk s failed h1 h2
    cases f2 with
    | zero => omega
    | succ j =>
      cases chunk with
      | nil => simp [matchChunkLoop]
      | cons c chunk1 =>
        simp only [List.length_cons] at h1 h2
        simp only [matchChunkLoop]
        split
        · have hle : ∀ x : List Nat, x.length ≤ chunk1.length → x.length ≤ k ∧ x.length ≤ j :=
            fun x hx => ⟨by omega, by omega⟩
          have htl : (if chunk1.head? = some 94 then chunk1.tail else chunk1).length ≤
              chunk1.length := by
            split
            · simp
            · exact Nat.le_refl _
          rw [parseRanges_fuel k j _ _ _ _ (hle _ htl).1 (hle _ htl).2]
          cases hp : parseRanges j (if chunk1.head? = some 94 then chunk1.tail else chunk1)
            (if (failed || s.isEmpty) = true then 0 else (utf8.DecodeRuneInString s).1)
            false 0 with
          | error e => rfl
          | ok v =>
            rcases v with ⟨mt, chunk3⟩
            have := parseRanges_length _ _ _ _ _ _ _ hp
            exact ih j chunk3 _ _ (by omega) (by omega)
        · split
          · split <;> exact ih j chunk1 _ _ (by omega) (by omega)
          · split
            · cases chunk1 with
              | nil => rfl
              | cons e chunk2 =>
                simp only [List.length_cons] at h1 h2
                simp only
                split <;> exact ih j chunk2 _ _ (by omega) (by omega)
            · split <;> exact ih j chunk1 _ _ (by omega) (by omega)

theorem dropStars_length (p : List Nat) : (dropStars p).length ≤ p.length := by
  induction p with
  | nil => simp [dropStars]
  | cons c rest ih =>
    unfold dropStars
    split
    · simp only [List.length_cons]; omega
    · exact Nat.le_refl _

/-- Each round of the `Pattern` loop shortens the pattern. -/
theorem scanChunk_length {p : List Nat} (hp : p ≠ []) :
    (scanChunk p).2.2.length < p.length := by
  unfold scanChunk
  simp only [List.length_drop]
  cases p with
  | nil => exact absurd rfl hp
  | cons c rest =>
    by_cases hc : c = 42
    · have : (dropStars (c :: rest)).length ≤ rest.length := by
        rw [dropStars]
        simp only [hc, if_true]
        exact dropStars_length rest
      simp only [List.length_cons]
      omega
    · have hd : dropStars (c :: rest) = c :: rest := by
        rw [dropStars]
        simp [hc]
      rw [hd]
      have := scanLen_pos false c rest hc
      simp only [List.length_cons]
      omega

theorem chunkError_fuel : ∀ (f1 f2 : Nat) (pattern : List Nat),
    pattern.length < f1 → pattern.length < f2 → chunkError f1 pattern = chunkError f2 pattern := by
  intro f1
  induction f1 with
  | zero => intro f2 pattern h1 _; omega
  | succ k ih =>
    intro f2 pattern h1 h2
    cases f2 with
    | zero => omega
    | succ j =>
      rw [chunkError_succ, chunkError_succ]
      by_cases hp : pattern.isEmpty = true
      · simp [hp]
      · simp only [hp, if_false]
        have hne : pattern ≠ [] := by
          intro h; rw [h] at hp; simp at hp
        have hlen := scanChunk_length hne
        rcases hsc : scanChunk pattern with ⟨star, chunk, rest⟩
        rw [hsc] at hlen
        simp only at hlen ⊢
        rcases matchChunk chunk [] with ⟨t, ok, _ | e⟩
        · exact ih j rest (by omega) (by omega)
        · rfl

theorem matchLoop_fuel : ∀ (f1 f2 : Nat) (pattern name : List Nat),
    pattern.length < f1 → pattern.length < f2 →
    matchLoop f1 pattern name = matchLoop f2 pattern name := by
  intro f1
  induction f1 with
  | zero => intro f2 pattern name h1 _; omega
  | succ k ih =>
    intro f2 pattern name h1 h2
    cases f2 with
    | zero => omega
    | succ j =>
      rw [matchLoop_succ, matchLoop_succ]
      by_cases hp : pattern.isEmpty = true
      · simp [hp]
      · simp only [hp, if_false]
        have hne : pattern ≠ [] := by
          intro h; rw [h] at hp; simp at hp
        have hlen := scanChunk_length hne
        rcases hsc : scanChunk pattern with ⟨star, chunk, rest⟩
        rw [hsc] at hlen
        simp only at hlen ⊢
        have hk : rest.length < k := by omega
        have hj : rest.length < j := by omega
        by_cases h1 : (star && chunk.isEmpty) = true
        · simp only [h1, if_true]
        · simp only [h1, Bool.false_eq_true, if_false]
          rcases matchChunk chunk name with ⟨t, ok, err⟩
          simp only
          by_cases h2 : (ok && (t.isEmpty || !rest.isEmpty)) = true
          · simp only [h2, if_true]
            exact ih j rest t hk hj
          · simp only [h2, Bool.false_eq_true, if_false]
            by_cases h3 : err.isSome = true
            · simp only [h3, if_true]
            · simp only [h3, Bool.false_eq_true, if_false]
              by_cases h4 : star = true
              · simp only [h4, if_true]
                cases starLoop chunk rest name with
                | next t1 => exact ih j rest t1 hk hj
                | bad e => rfl
                | none => rfl
              · simp only [h4, Bool.false_eq_true, if_false]

/-- More fuel than `Match` gives its loop changes nothing: the loop ends on the
pattern, not on the fuel. -/
theorem Match_fuel (pattern name : String) (fuel : Nat) (h : (goBytes pattern).length < fuel) :
    matchLoop fuel (goBytes pattern) (goBytes name) = Match pattern name := by
  unfold Match
  exact matchLoop_fuel _ _ _ _ h (Nat.lt_succ_self _)

/-- More fuel than `matchChunk` gives its loop changes nothing. -/
theorem matchChunk_fuel (chunk s : List Nat) (fuel : Nat) (h : chunk.length < fuel) :
    matchChunkLoop fuel chunk s false = matchChunk chunk s := by
  unfold matchChunk
  exact matchChunkLoop_fuel _ _ _ _ _ h (Nat.lt_succ_self _)

end filepath

/-! ## `filepath.Walk` calls the callback for the entries in turn -/

theorem visitAll_append {σ : Type} (fn : filepath.WalkFunc σ) :
    ∀ (a b : List (RelPath × Node)) (s : σ),
      visitAll fn (a ++ b) s =
        match visitAll fn a s with
        | (s1, some e) => (s1, some e)
        | (s1, none) => visitAll fn b s1 := by
  intro a
  induction a with
  | nil => intro b s; simp [visitAll]
  | cons x rest ih =>
    intro b s
    simp only [List.cons_append, visitAll]
    rcases hc : callOf fn x s with ⟨s1, _ | e⟩
    · exact ih b s1
    · simp

theorem callOf_noSkip {σ : Type} {fn : filepath.WalkFunc σ} (hfn : NoSkip fn)
    {x : RelPath × Node} {s s1 : σ} {e : Error} (h : callOf fn x s = (s1, some e)) :
    e ≠ .SkipDir ∧ e ≠ .SkipAll := by
  unfold callOf at h
  split at h
  · exact hfn _ _ _ _ _ _ (Or.inl rfl) h
  · exact hfn _ _ _ _ _ _ (Or.inl rfl) h
  · exact hfn _ _ _ _ _ _ (Or.inr ⟨_, rfl⟩) h
  · exact hfn _ _ _ _ _ _ (Or.inr ⟨_, rfl⟩) h

theorem visitAll_noSkip {σ : Type} {fn : filepath.WalkFunc σ} (hfn : NoSkip fn) :
    ∀ (l : List (RelPath × Node)) (s s1 : σ) (e : Error),
      visitAll fn l s = (s1, some e) → e ≠ .SkipDir ∧ e ≠ .SkipAll := by
  intro l
  induction l with
  | nil => intro s s1 e h; simp [visitAll] at h
  | cons x rest ih =>
    intro s s1 e h
    simp only [visitAll] at h
    rcases hc : callOf fn x s with ⟨s2, _ | e2⟩
    · rw [hc] at h
      exact ih _ _ _ h
    · rw [hc] at h
      simp only [Prod.mk.injEq, Option.some.injEq] at h
      rw [← h.2]
      exact callOf_noSkip hfn hc

mutual
theorem walk_eq_visitAll {σ : Type} {fn : filepath.WalkFunc σ} (hfn : NoSkip fn) :
    ∀ (node : Node) (path : RelPath) (s : σ),
      filepath.walk fn path node s = visitAll fn (node.entriesFrom path) s
  | .file k, path, s => by
    simp [filepath.walk, Node.entriesFrom, visitAll, callOf]
    rcases fn s path (some ⟨.nondir k⟩) none with ⟨s1, _ | e⟩ <;> rfl
  | .unreadable errno, path, s => by
    simp [filepath.walk, Node.entriesFrom, visitAll, callOf]
    rcases fn s path (some ⟨.dir⟩) (some (.os errno)) with ⟨s1, _ | e⟩ <;> rfl
  | .noStat errno, path, s => by
    simp [filepath.walk, Node.entriesFrom, visitAll, callOf]
    rcases fn s path none (some (.os errno)) with ⟨s1, _ | e⟩ <;> rfl
  | .dir entries, path, s => by
    simp only [filepath.walk, Node.entriesFrom, visitAll, callOf]
    rcases fn s path (some ⟨.dir⟩) none with ⟨s1, _ | e⟩
    · simp only
      exact walkNames_eq_visitAll hfn entries path s1
    · rfl
theorem walkNames_eq_visitAll {σ : Type} {fn : filepath.WalkFunc σ} (hfn : NoSkip fn) :
    ∀ (entries : List (String × Node)) (path : RelPath) (s : σ),
      filepath.walkNames fn path entries s = visitAll fn (Node.entriesOf path entries) s
  | [], path, s => by simp [filepath.walkNames, Node.entriesOf, visitAll]
  | (name, child) :: rest, path, s => by
    have hrest := walkNames_eq_visitAll hfn rest path
    have hchild := walk_eq_visitAll hfn child (path ++ [name])
    simp only [Node.entriesOf, visitAll_append]
    cases child with
    | noStat errno =>
      simp only [filepath.walkNames, Node.entriesFrom, visitAll, callOf, filepath.Join]
      rcases hc : fn s (path ++ [name]) none (some (.os errno)) with ⟨s1, _ | e⟩
      · simp only [hrest]
      · have := (hfn _ _ _ _ _ _ (Or.inr ⟨_, rfl⟩) hc).1
        simp [this]
    | file k =>
      simp only [filepath.walkNames, filepath.Join, hchild]
      rcases hc : visitAll fn ((Node.file k).entriesFrom (path ++ [name])) s with ⟨s1, _ | e⟩
      · simp only [hrest]
      · simp [Node.info, FileInfo.IsDir]
    | unreadable errno =>
      simp only [filepath.walkNames, filepath.Join, hchild]
      rcases hc : visitAll fn ((Node.unreadable errno).entriesFrom (path ++ [name])) s with ⟨s1, _ | e⟩
      · simp only [hrest]
      · have := (visitAll_noSkip hfn _ _ _ _ hc).1
        simp [this]
    | dir es =>
      simp only [filepath.walkNames, filepath.Join, hchild]
      rcases hc : visitAll fn ((Node.dir es).entriesFrom (path ++ [name])) s with ⟨s1, _ | e⟩
      · simp only [hrest]
      · have := (visitAll_noSkip hfn _ _ _ _ hc).1
        simp [this]
end

theorem Walk_eq_visitAll {σ : Type} {fn : filepath.WalkFunc σ} (hfn : NoSkip fn)
    (root : Node) (s : σ) :
    filepath.Walk root fn s = visitAll fn (root.entriesFrom []) s := by
  have fin : ∀ r : σ × Option Error, r = visitAll fn (root.entriesFrom []) s →
      (if r.2 = some .SkipDir ∨ r.2 = some .SkipAll then (r.1, none) else r) = r := by
    intro r hr
    rcases r with ⟨s1, _ | e⟩
    · simp
    · have := visitAll_noSkip hfn _ _ _ _ hr.symm
      simp [this.1, this.2]
  cases root with
  | noStat errno =>
    have hr : fn s [] none (some (.os errno)) = visitAll fn ((Node.noStat errno).entriesFrom []) s := by
      simp only [Node.entriesFrom, visitAll, callOf]
      rcases fn s [] none (some (.os errno)) with ⟨s1, _ | e⟩ <;> rfl
    simp only [filepath.Walk]
    rw [fin _ hr, hr]
  | file k =>
    have hr := walk_eq_visitAll hfn (.file k) [] s
    simp only [filepath.Walk]
    rw [fin _ hr, hr]
  | dir es =>
    have hr := walk_eq_visitAll hfn (.dir es) [] s
    simp only [filepath.Walk]
    rw [fin _ hr, hr]
  | unreadable errno =>
    have hr := walk_eq_visitAll hfn (.unreadable errno) [] s
    simp only [filepath.Walk]
    rw [fin _ hr, hr]

/-! ## The callback of `WalkMatch` -/

theorem Rel_eq (path : RelPath) : filepath.Rel path = .ok (relOf path) := by
  unfold filepath.Rel relOf
  split <;> rfl

theorem walkFn_noSkip (root : FileTree) (pattern : String) :
    NoSkip (WalkMatch.walkFn root pattern) := by
  intro s path info err s1 e herr h
  unfold WalkMatch.walkFn at h
  rcases herr with rfl | ⟨errno, rfl⟩
  · simp only at h
    split at h
    · simp at h
      rw [← h.2]; simp
    · split at h
      · simp at h
      · split at h
        · rename_i e1 hm
          simp only [Prod.mk.injEq, Option.some.injEq] at h
          have := filepath.Match_error (e := e1) (by rw [hm])
          rw [← h.2, this]; simp
        · simp [Rel_eq] at h
        · simp at h
  · simp only [Prod.mk.injEq, Option.some.injEq] at h
    rw [← h.2]; simp

/-- What the callback of `WalkMatch` does at one entry. -/
theorem callOf_walkFn (root : FileTree) (pattern : String) (e : RelPath × Node) (s : List String) :
    callOf (WalkMatch.walkFn root pattern) e s =
      match e.2.errno? with
      | some errno => (s, some (.os errno))
      | none =>
        if e.2.isNonDir then
          match filepath.Match pattern (filepath.Base root.base e.1) with
          | (_, some err) => (s, some err)
          | (true, none) => (s ++ [relOf e.1], none)
          | (false, none) => (s, none)
        else (s, none) := by
  rcases e with ⟨path, node⟩
  cases node with
  | file k =>
    simp only [callOf, WalkMatch.walkFn, FileInfo.IsDir, Node.errno?, Node.isNonDir, Rel_eq]
    rcases filepath.Match pattern (filepath.Base root.base path) with ⟨_ | _, _ | er⟩ <;>
      simp
  | dir es => simp [callOf, WalkMatch.walkFn, FileInfo.IsDir, Node.errno?, Node.isNonDir]
  | unreadable errno => simp [callOf, WalkMatch.walkFn, Node.errno?]
  | noStat errno => simp [callOf, WalkMatch.walkFn, Node.errno?]

theorem WalkMatch_eq (root : FileTree) (pattern : String) :
    WalkMatch root pattern =
      match visitAll (WalkMatch.walkFn root pattern) root.entries [] with
      | (_, some err) => ([], some err)
      | (ms, none) => (ms, none) := by
  unfold WalkMatch
  rw [Walk_eq_visitAll (walkFn_noSkip root pattern)]
  rfl

theorem errno?_eq_none {n : Node} : n.errno? = none ↔ n.isFailure = false := by
  cases n <;> simp [Node.errno?, Node.isFailure]

/-- Without a failing entry and without a pattern error the pass runs to the end
and adds the selected entries. -/
theorem visitAll_ok (root : FileTree) (pattern : String) :
    ∀ (l : List (RelPath × Node)) (s : List String),
      (∀ e ∈ l, e.2.isFailure = false) →
      (∀ e ∈ l, e.2.isNonDir = true →
        (filepath.Match pattern (filepath.Base root.base e.1)).2 = none) →
      visitAll (WalkMatch.walkFn root pattern) l s =
        (s ++ (l.filter (root.selects pattern)).map (fun e => relOf e.1), none) := by
  intro l
  induction l with
  | nil => intro s _ _; simp [visitAll]
  | cons x rest ih =>
    intro s hf hm
    have hxf := hf x (List.mem_cons_self _ _)
    have hrf : ∀ e ∈ rest, e.2.isFailure = false := fun e he => hf e (List.mem_cons_of_mem _ he)
    have hrm : ∀ e ∈ rest, e.2.isNonDir = true →
        (filepath.Match pattern (filepath.Base root.base e.1)).2 = none :=
      fun e he => hm e (List.mem_cons_of_mem _ he)
    simp only [visitAll, callOf_walkFn, errno?_eq_none.2 hxf]
    by_cases hnd : x.2.isNonDir = true
    · have hxm := hm x (List.mem_cons_self _ _) hnd
      rcases hM : filepath.Match pattern (filepath.Base root.base x.1) with ⟨b, er⟩
      rw [hM] at hxm
      simp only at hxm
      subst hxm
      cases b
      · simp only [hnd, if_true]
        rw [ih _ hrf hrm]
        simp [List.filter, FileTree.selects, FileTree.matchesAt, hM]
      · simp only [hnd, if_true]
        rw [ih _ hrf hrm]
        simp [List.filter, FileTree.selects, FileTree.matchesAt, hM, hnd]
    · have hnd2 : x.2.isNonDir = false := by simpa using hnd
      simp only [hnd2, Bool.false_eq_true, if_false]
      rw [ih _ hrf hrm]
      simp [List.filter, FileTree.selects, hnd2]

/-- A pass that ends without error met no failing entry and no pattern error. -/
theorem visitAll_none (root : FileTree) (pattern : String) :
    ∀ (l : List (RelPath × Node)) (s : List String),
      (visitAll (WalkMatch.walkFn root pattern) l s).2 = none →
      (∀ e ∈ l, e.2.isFailure = false) ∧
      (∀ e ∈ l, e.2.isNonDir = true →
        (filepath.Match pattern (filepath.Base root.base e.1)).2 = none) := by
  intro l
  induction l with
  | nil => intro s _; simp
  | cons x rest ih =>
    intro s h
    simp only [visitAll, callOf_walkFn] at h
    cases hx : x.2.errno? with
    | some errno => rw [hx] at h; simp at h
    | none =>
      rw [hx] at h
      simp only at h
      have hxf := errno?_eq_none.1 hx
      by_cases hnd : x.2.isNonDir = true
      · simp only [hnd, if_true] at h
        rcases hM : filepath.Match pattern (filepath.Base root.base x.1) with ⟨b, _ | er⟩
        · rw [hM] at h
          cases b <;> simp only at h <;>
          · have := ih _ h
            exact ⟨List.forall_mem_cons.2 ⟨hxf, this.1⟩, by
              intro e he hend
              rcases List.mem_cons.1 he with rfl | he
              · rw [hM]
              · exact this.2 e he hend⟩
        · rw [hM] at h
          simp at h
      · have hnd2 : x.2.isNonDir = false := by simpa using hnd
        simp only [hnd2, Bool.false_eq_true, if_false] at h
        have := ih _ h
        exact ⟨List.forall_mem_cons.2 ⟨hxf, this.1⟩, by
          intro e he hend
          rcases List.mem_cons.1 he with rfl | he
          · exact absurd hend hnd
          · exact this.2 e he hend⟩

/-- On entries that can all be read, the pass ends in `ErrBadPattern` exactly when
`Match` reports an error at the base name of an entry that is not a directory. -/
theorem visitAll_readable_error (root : FileTree) (pattern : String) :
    ∀ (l : List (RelPath × Node)) (s : List String),
      (∀ e ∈ l, e.2.isFailure = false) →
      (visitAll (WalkMatch.walkFn root pattern) l s).2 =
        if l.any (fun e => e.2.isNonDir &&
            (filepath.Match pattern (filepath.Base root.base e.1)).2.isSome)
        then some .ErrBadPattern else none := by
  intro l
  induction l with
  | nil => intro s _; simp [visitAll]
  | cons x rest ih =>
    intro s hf
    have hxf := hf x (List.mem_cons_self _ _)
    have hrf : ∀ e ∈ rest, e.2.isFailure = false := fun e he => hf e (List.mem_cons_of_mem _ he)
    simp only [visitAll, callOf_walkFn, errno?_eq_none.2 hxf, List.any_cons]
    by_cases hnd : x.2.isNonDir = true
    · obtain ⟨b, er, hM⟩ : ∃ b er, filepath.Match pattern (filepath.Base root.base x.1) = (b, er) :=
        ⟨_, _, rfl⟩
      simp only [hnd, if_true, Bool.true_and, hM]
      cases er with
      | none =>
        cases b <;>
          simp only [Option.isSome_none, Bool.false_or, ih _ hrf]
      | some er =>
        have := @filepath.Match_error pattern (filepath.Base root.base x.1) er (by rw [hM])
        subst this
        simp
    · have hnd2 : x.2.isNonDir = false := by simpa using hnd
      simp only [hnd2, Bool.false_eq_true, if_false, Bool.false_and, Bool.false_or]
      exact ih _ hrf

/-! ## The shape of the list of entries -/

mutual
theorem Node.induction {P : Node → Prop}
    (hfile : ∀ k, P (.file k)) (hunreadable : ∀ errno, P (.unreadable errno))
    (hnoStat : ∀ errno, P (.noStat errno))
    (hdir : ∀ entries : List (String × Node), (∀ c ∈ entries, P c.2) → P (.dir entries)) :
    ∀ n : Node, P n
  | .file k => hfile k
  | .unreadable errno => hunreadable errno
  | .noStat errno => hnoStat errno
  | .dir entries => hdir entries (Node.induction_list hfile hunreadable hnoStat hdir entries)
theorem Node.induction_list {P : Node → Prop}
    (hfile : ∀ k, P (.file k)) (hunreadable : ∀ errno, P (.unreadable errno))
    (hnoStat : ∀ errno, P (.noStat errno))
    (hdir : ∀ entries : List (String × Node), (∀ c ∈ entries, P c.2) → P (.dir entries)) :
    ∀ entries : List (String × Node), ∀ c ∈ entries, P c.2
  | [], c, hc => by cases hc
  | (name, child) :: rest, c, hc => by
    rcases List.mem_cons.1 hc with rfl | hc
    · exact Node.induction hfile hunreadable hnoStat hdir child
    · exact Node.induction_list hfile hunreadable hnoStat hdir rest c hc
end

theorem entriesOf_eq_flatMap (path : RelPath) (entries : List (String × Node)) :
    Node.entriesOf path entries =
      entries.flatMap (fun c => Node.entriesFrom (path ++ [c.1]) c.2) := by
  induction entries with
  | nil => simp [Node.entriesOf]
  | cons c rest ih =>
    rcases c with ⟨name, child⟩
    simp [Node.entriesOf, ih]

theorem entriesFrom_dir (path : RelPath) (entries : List (String × Node)) :
    Node.entriesFrom path (.dir entries) =
      (path, .dir entries) ::
        entries.flatMap (fun c => Node.entriesFrom (path ++ [c.1]) c.2) := by
  rw [Node.entriesFrom, entriesOf_eq_flatMap]

/-- The entries below `path` are the entries below the root, with `path` put in front. -/
theorem entriesFrom_shift : ∀ (n : Node) (path : RelPath),
    n.entriesFrom path = (n.entriesFrom []).map (fun e => (path ++ e.1, e.2)) := by
  intro n
  induction n using Node.induction with
  | hfile k => intro path; simp [Node.entriesFrom]
  | hunreadable errno => intro path; simp [Node.entriesFrom]
  | hnoStat errno => intro path; simp [Node.entriesFrom]
  | hdir entries ih =>
    intro path
    rw [entriesFrom_dir, entriesFrom_dir]
    simp only [List.map_cons, List.append_nil, List.nil_append, List.map_flatMap]
    congr 1
    apply List.flatMap_congr
    intro c hc
    rw [ih c hc (path ++ [c.1]), ih c hc [c.1]]
    simp [List.map_map, Function.comp]

/-- The entries of a directory: the directory itself, then the entries of each
member with the name of the member put in front. -/
theorem entriesFrom_nil_dir (entries : List (String × Node)) :
    Node.entriesFrom [] (.dir entries) =
      ([], .dir entries) ::
        entries.flatMap (fun c => (c.2.entriesFrom []).map (fun e => (c.1 :: e.1, e.2))) := by
  rw [entriesFrom_dir]
  congr 1
  apply List.flatMap_congr
  intro c _
  rw [entriesFrom_shift c.2 ([] ++ [c.1])]
  simp

theorem entriesFrom_head (n : Node) (path : RelPath) :
    ∃ rest, n.entriesFrom path = (path, n) :: rest := by
  cases n <;> simp [Node.entriesFrom]

theorem WellFormed_dir {entries : List (String × Node)} (h : (Node.dir entries).WellFormed) :
    (entries.map Prod.fst).Nodup ∧ (∀ name ∈ entries.map Prod.fst, '/' ∉ name.toList) ∧
      ∀ c ∈ entries, c.2.WellFormed := by
  refine ⟨(h ([], .dir entries) (by simp [Node.entriesFrom])).1,
    (h ([], .dir entries) (by simp [Node.entriesFrom])).2, ?_⟩
  intro c hc e he
  apply h (c.1 :: e.1, e.2)
  rw [entriesFrom_nil_dir]
  apply List.mem_cons_of_mem
  rw [List.mem_flatMap]
  exact ⟨c, hc, List.mem_map.2 ⟨e, he, rfl⟩⟩

/-- Only the root has the empty path. -/
theorem entriesFrom_nil_path : ∀ (n : Node) (e : RelPath × Node),
    e ∈ n.entriesFrom [] → e.1 = [] → e = ([], n) := by
  intro n e he h
  cases n with
  | file k => simpa [Node.entriesFrom] using he
  | unreadable errno => simpa [Node.entriesFrom] using he
  | noStat errno => simpa [Node.entriesFrom] using he
  | dir entries =>
    rw [entriesFrom_nil_dir] at he
    rcases List.mem_cons.1 he with rfl | he
    · rfl
    · rw [List.mem_flatMap] at he
      obtain ⟨c, _, hc⟩ := he
      obtain ⟨e2, _, rfl⟩ := List.mem_map.1 hc
      simp at h

/-- In a well-formed tree no two entries have the same path. -/
theorem entries_paths_nodup : ∀ n : Node, n.WellFormed → ((n.entriesFrom []).map Prod.fst).Nodup := by
  intro n
  induction n using Node.induction with
  | hfile k => intro _; simp [Node.entriesFrom]
  | hunreadable errno => intro _; simp [Node.entriesFrom]
  | hnoStat errno => intro _; simp [Node.entriesFrom]
  | hdir entries ih =>
    intro hwf
    obtain ⟨hnd, _, hch⟩ := WellFormed_dir hwf
    rw [entriesFrom_nil_dir, List.map_cons, List.nodup_cons]
    constructor
    · simp only [List.map_flatMap, List.map_map, List.mem_flatMap, List.mem_map, Function.comp,
        not_exists, not_and]
      intro c _ e _
      simp
    · rw [List.map_flatMap, List.nodup_flatMap]
      constructor
      · intro c hc
        rw [List.map_map]
        have := ih c hc (hch c hc)
        have h2 : ((c.2.entriesFrom []).map (Prod.fst ∘ fun e => (c.1 :: e.1, e.2))) =
            ((c.2.entriesFrom []).map Prod.fst).map (fun p => c.1 :: p) := by
          simp [List.map_map, Function.comp]
        rw [h2]
        exact this.map (fun a b hab => by simpa using hab)
      · have hp : List.Pairwise (fun a b : String × Node => a.1 ≠ b.1) entries :=
          List.pairwise_map.1 hnd
        refine hp.imp ?_
        intro a b hab
        intro p hp1 hp2
        obtain ⟨e1, he1, rfl⟩ := List.mem_map.1 hp1
        obtain ⟨e2, he2, h2⟩ := List.mem_map.1 hp2
        obtain ⟨x1, _, rfl⟩ := List.mem_map.1 he1
        obtain ⟨x2, _, rfl⟩ := List.mem_map.1 he2
        simp only [List.cons.injEq] at h2
        exact hab h2.1.symm

/-- In a well-formed tree no name on a path holds a `/`. -/
theorem entries_names_clean : ∀ n : Node, n.WellFormed →
    ∀ e ∈ n.entriesFrom [], ∀ name ∈ e.1, '/' ∉ name.toList := by
  intro n
  induction n using Node.induction with
  | hfile k => intro _ e he; simp [Node.entriesFrom] at he; subst he; simp
  | hunreadable errno => intro _ e he; simp [Node.entriesFrom] at he; subst he; simp
  | hnoStat errno => intro _ e he; simp [Node.entriesFrom] at he; subst he; simp
  | hdir entries ih =>
    intro hwf e he
    obtain ⟨_, hcl, hch⟩ := WellFormed_dir hwf
    rw [entriesFrom_nil_dir] at he
    rcases List.mem_cons.1 he with rfl | he
    · simp
    · rw [List.mem_flatMap] at he
      obtain ⟨c, hc, hce⟩ := he
      obtain ⟨e2, he2, rfl⟩ := List.mem_map.1 hce
      intro name hname
      rcases List.mem_cons.1 hname with rfl | hname
      · exact hcl _ (List.mem_map.2 ⟨c, hc, rfl⟩)
      · exact ih c hc (hch c hc) e2 he2 name hname

/-- In a list of pairs with pairwise different first components, the member with a
given first component is the only one that contributes. -/
theorem flatMap_single {α β : Type} [DecidableEq α] (l : List (α × β)) (c : α × β) (X : List (List α × β))
    (f : α × β → List (List α × β))
    (hnd : (l.map Prod.fst).Nodup) (hc : c ∈ l) (hf : f c = X)
    (hother : ∀ c2 ∈ l, c2.1 ≠ c.1 → f c2 = []) :
    l.flatMap f = X := by
  induction l with
  | nil => cases hc
  | cons x rest ih =>
    rw [List.map_cons, List.nodup_cons] at hnd
    rw [List.flatMap_cons]
    rcases List.mem_cons.1 hc with rfl | hc
    · have : rest.flatMap f = [] := by
        rw [List.flatMap_eq_nil_iff]
        intro c2 hc2
        apply hother c2 (List.mem_cons_of_mem _ hc2)
        intro heq
        exact hnd.1 (heq ▸ List.mem_map.2 ⟨c2, hc2, rfl⟩)
      rw [this, hf, List.append_nil]
    · have hx : f x = [] := by
        apply hother x (List.mem_cons_self _ _)
        intro heq
        exact hnd.1 (heq ▸ List.mem_map.2 ⟨c, hc, rfl⟩)
      rw [hx, List.nil_append]
      exact ih hnd.2 hc (fun c2 hc2 => hother c2 (List.mem_cons_of_mem _ hc2))

/-- In a well-formed tree, the entries whose path starts with the path of a
directory are the entries of that directory, in the same order. -/
theorem entries_under_dir : ∀ (n : Node), n.WellFormed →
    ∀ (d : RelPath) (es : List (String × Node)), (d, Node.dir es) ∈ n.entriesFrom [] →
      (n.entriesFrom []).filter (fun e => d.isPrefixOf e.1) = (Node.dir es).entriesFrom d := by
  intro n
  induction n using Node.induction with
  | hfile k =>
    intro _ d es hd
    simp [Node.entriesFrom] at hd
  | hunreadable errno =>
    intro _ d es hd
    simp [Node.entriesFrom] at hd
  | hnoStat errno =>
    intro _ d es hd
    simp [Node.entriesFrom] at hd
  | hdir entries ih =>
    intro hwf d es hd
    obtain ⟨hnd, _, hch⟩ := WellFormed_dir hwf
    cases d with
    | nil =>
      have := entriesFrom_nil_path _ _ hd rfl
      simp only [Prod.mk.injEq, true_and] at this
      rw [this]
      apply List.filter_eq_self.2
      intro e _
      simp [List.isPrefixOf]
    | cons name d2 =>
      rw [entriesFrom_nil_dir] at hd ⊢
      rcases List.mem_cons.1 hd with hd | hd
      · simp at hd
      · rw [List.mem_flatMap] at hd
        obtain ⟨c, hc, hce⟩ := hd
        obtain ⟨e2, he2, heq⟩ := List.mem_map.1 hce
        simp only [Prod.mk.injEq, List.cons.injEq] at heq
        obtain ⟨⟨hname, hd2⟩, he22⟩ := heq
        have he2' : (d2, Node.dir es) ∈ c.2.entriesFrom [] := by
          rw [← hd2, ← he22]; exact he2
        rw [List.filter_cons]
        simp only [List.isPrefixOf, Bool.false_eq_true, if_false]
        rw [List.filter_flatMap]
        apply flatMap_single entries c _ _ hnd hc
        · rw [List.filter_map]
          have hfun : ((fun e : RelPath × Node => (name :: d2).isPrefixOf e.1) ∘
              fun e : RelPath × Node => (c.1 :: e.1, e.2)) = fun e => d2.isPrefixOf e.1 := by
            funext e
            simp [List.isPrefixOf, hname]
          rw [hfun, ih c hc (hch c hc) d2 es he2']
          rw [entriesFrom_shift (Node.dir es) (name :: d2), entriesFrom_shift (Node.dir es) d2]
          simp [List.map_map, Function.comp, hname]
        · intro c2 _ hne
          rw [List.filter_map, List.map_eq_nil_iff, List.filter_eq_nil_iff]
          intro e _
          simp only [Function.comp, List.isPrefixOf, Bool.and_eq_true, beq_iff_eq, not_and]
          intro h
          exact absurd (h.symm.trans hname.symm) hne

/-! ## Path strings -/

/-- The characters of the names, separated by `/`. -/
theorem intercalate_cons_cons (a b : String) (rest : List String) :
    List.intercalate ['/'] ((a :: b :: rest).map String.toList) =
      a.toList ++ '/' :: List.intercalate ['/'] ((b :: rest).map String.toList) := by
  simp [List.intercalate, List.intersperse]

theorem intercalate_single (a : String) :
    List.intercalate ['/'] ([a].map String.toList) = a.toList := by
  simp [List.intercalate, List.intersperse]

theorem intercalate_append : ∀ (d q : List String), d ≠ [] → q ≠ [] →
    List.intercalate ['/'] ((d ++ q).map String.toList) =
      List.intercalate ['/'] (d.map String.toList) ++
        '/' :: List.intercalate ['/'] (q.map String.toList) := by
  intro d
  induction d with
  | nil => intro q h; exact absurd rfl h
  | cons a rest ih =>
    intro q _ hq
    cases rest with
    | nil =>
      cases q with
      | nil => exact absurd rfl hq
      | cons b q2 =>
        rw [List.singleton_append, intercalate_cons_cons, intercalate_single]
    | cons a2 rest2 =>
      rw [List.cons_append, List.cons_append, intercalate_cons_cons, intercalate_cons_cons,
        ← List.cons_append, ih q (by simp) hq]
      simp

/-- Two slash-free words followed by a slash agree when the texts agree. -/
theorem slash_split {a b x y : List Char} (ha : '/' ∉ a) (hb : '/' ∉ b)
    (h : a ++ '/' :: x = b ++ '/' :: y) : a = b ∧ x = y := by
  induction a generalizing b with
  | nil =>
    cases b with
    | nil => simpa using h
    | cons c b2 =>
      simp only [List.nil_append, List.cons_append, List.cons.injEq] at h
      exact absurd (h.1 ▸ List.mem_cons_self _ _) hb
  | cons c a2 ih =>
    cases b with
    | nil =>
      simp only [List.nil_append, List.cons_append, List.cons.injEq] at h
      exact absurd (h.1 ▸ List.mem_cons_self _ _) ha
    | cons c2 b2 =>
      simp only [List.cons_append, List.cons.injEq] at h
      have := ih (b := b2) (fun hm => ha (List.mem_cons_of_mem _ hm))
        (fun hm => hb (List.mem_cons_of_mem _ hm)) h.2
      exact ⟨by rw [h.1, this.1], this.2⟩

theorem slash_not_plain {a b x : List Char} (hb : '/' ∉ b) (h : a ++ '/' :: x = b) : False := by
  apply hb
  rw [← h]
  simp

/-- The path string determines the names, when no name holds a slash. -/
theorem intercalate_inj : ∀ (p q : List String), p ≠ [] → q ≠ [] →
    (∀ name ∈ p, '/' ∉ name.toList) → (∀ name ∈ q, '/' ∉ name.toList) →
    List.intercalate ['/'] (p.map String.toList) = List.intercalate ['/'] (q.map String.toList) →
    p = q := by
  intro p
  induction p with
  | nil => intro q h; exact absurd rfl h
  | cons a rest ih =>
    intro q _ hq hp hcq h
    cases q with
    | nil => exact absurd rfl hq
    | cons b rest2 =>
      have ha := hp a (List.mem_cons_self _ _)
      have hb := hcq b (List.mem_cons_self _ _)
      cases rest with
      | nil =>
        cases rest2 with
        | nil =>
          rw [intercalate_single, intercalate_single] at h
          rw [String.ext h]
        | cons b2 r2 =>
          rw [intercalate_single, intercalate_cons_cons] at h
          exact (slash_not_plain ha h.symm).elim
      | cons a2 r =>
        cases rest2 with
        | nil =>
          rw [intercalate_single, intercalate_cons_cons] at h
          exact (slash_not_plain hb h).elim
        | cons b2 r2 =>
          rw [intercalate_cons_cons, intercalate_cons_cons] at h
          obtain ⟨h1, h2⟩ := slash_split ha hb h
          have := ih (b2 :: r2) (by simp) (by simp)
            (fun n hn => hp n (List.mem_cons_of_mem _ hn))
            (fun n hn => hcq n (List.mem_cons_of_mem _ hn)) h2
          rw [String.ext h1, this]

/-- A path string starts with the string of `d` and a slash exactly when the path
goes through `d` and further down. -/
theorem intercalate_under : ∀ (d p : List String), d ≠ [] →
    (∀ name ∈ d, '/' ∉ name.toList) → (∀ name ∈ p, '/' ∉ name.toList) →
    (List.intercalate ['/'] (d.map String.toList) ++ ['/'] <+:
        List.intercalate ['/'] (p.map String.toList) ↔ d <+: p ∧ d ≠ p) := by
  intro d p hd hcd hcp
  constructor
  · revert p
    induction d with
    | nil => exact absurd rfl hd
    | cons a rest ih =>
      intro p hcp hpre
      have ha := hcd a (List.mem_cons_self _ _)
      obtain ⟨t, ht⟩ := hpre
      cases p with
      | nil =>
        cases rest with
        | nil =>
          rw [intercalate_single] at ht
          simp [List.intercalate] at ht
        | cons a2 r =>
          rw [intercalate_cons_cons] at ht
          simp [List.intercalate] at ht
      | cons b p2 =>
        have hb := hcp b (List.mem_cons_self _ _)
        cases rest with
        | nil =>
          rw [intercalate_single] at ht
          cases p2 with
          | nil =>
            rw [intercalate_single] at ht
            simp only [List.append_assoc, List.singleton_append] at ht
            exact (slash_not_plain hb ht).elim
          | cons b2 r2 =>
            rw [intercalate_cons_cons] at ht
            simp only [List.append_assoc, List.singleton_append] at ht
            obtain ⟨h1, _⟩ := slash_split ha hb ht
            rw [String.ext h1]
            exact ⟨by simp [List.cons_prefix_cons], by simp⟩
        | cons a2 r =>
          rw [intercalate_cons_cons] at ht
          cases p2 with
          | nil =>
            rw [intercalate_single] at ht
            simp only [List.append_assoc, List.cons_append] at ht
            exact (slash_not_plain hb ht).elim
          | cons b2 r2 =>
            rw [intercalate_cons_cons] at ht
            simp only [List.append_assoc, List.cons_append] at ht
            obtain ⟨h1, h2⟩ := slash_split ha hb ht
            have := ih (by simp) (fun n hn => hcd n (List.mem_cons_of_mem _ hn)) (b2 :: r2)
              (fun n hn => hcp n (List.mem_cons_of_mem _ hn))
              ⟨t, by simpa [List.append_assoc] using h2⟩
            rw [String.ext h1]
            refine ⟨List.cons_prefix_cons.2 ⟨rfl, this.1⟩, ?_⟩
            intro heq
            exact this.2 (List.cons.inj heq).2
  · rintro ⟨⟨q, rfl⟩, hne⟩
    have hq : q ≠ [] := by
      intro h
      apply hne
      rw [h, List.append_nil]
    rw [intercalate_append d q hd hq]
    exact ⟨List.intercalate ['/'] (q.map String.toList), by simp⟩

theorem relOf_of_ne_nil {p : RelPath} (h : p ≠ []) :
    relOf p = String.mk (List.intercalate ['/'] (p.map String.toList)) := by
  cases p with
  | nil => exact absurd rfl h
  | cons a r => simp [relOf]

theorem relOf_append {d q : RelPath} (hd : d ≠ []) (hq : q ≠ []) :
    relOf (d ++ q) = relOf d ++ "/" ++ relOf q := by
  rw [relOf_of_ne_nil hd, relOf_of_ne_nil hq, relOf_of_ne_nil (by simp [hd]),
    intercalate_append d q hd hq]
  apply String.ext
  simp [String.data_append]

theorem relOf_inj {p q : RelPath} (hp : p ≠ []) (hq : q ≠ [])
    (hcp : ∀ name ∈ p, '/' ∉ name.toList) (hcq : ∀ name ∈ q, '/' ∉ name.toList)
    (h : relOf p = relOf q) : p = q := by
  rw [relOf_of_ne_nil hp, relOf_of_ne_nil hq] at h
  exact intercalate_inj p q hp hq hcp hcq (congrArg String.data h)

theorem liesUnder_relOf {d p : RelPath} (hd : d ≠ []) (hp : p ≠ [])
    (hcd : ∀ name ∈ d, '/' ∉ name.toList) (hcp : ∀ name ∈ p, '/' ∉ name.toList) :
    liesUnder (relOf d) (relOf p) = true ↔ d <+: p ∧ d ≠ p := by
  rw [liesUnder, relOf_of_ne_nil hd, relOf_of_ne_nil hp, List.isPrefixOf_iff_prefix]
  exact intercalate_under d p hd hcd hcp

/-! ## The result of `WalkMatch` -/

/-- The pass fails as soon as the list holds a failing entry. -/
theorem visitAll_fails (root : FileTree) (pattern : String) (l : List (RelPath × Node))
    (s : List String) (h : ∃ e ∈ l, e.2.isFailure = true) :
    ∃ err, (visitAll (WalkMatch.walkFn root pattern) l s).2 = some err := by
  cases hv : (visitAll (WalkMatch.walkFn root pattern) l s).2 with
  | some err => exact ⟨err, rfl⟩
  | none =>
    rcases h with ⟨e, he, hf⟩
    have := (visitAll_none root pattern l s hv).1 e he
    rw [this] at hf
    cases hf

/-- The result of `WalkMatch` on a readable tree when `Match` raises no error at
the entries. -/
theorem WalkMatch_ok (root : FileTree) (pattern : String) (hread : root.Readable)
    (hm : ∀ e ∈ root.entries, e.2.isNonDir = true →
      (filepath.Match pattern (filepath.Base root.base e.1)).2 = none) :
    WalkMatch root pattern =
      ((root.entries.filter (root.selects pattern)).map (fun e => relOf e.1), none) := by
  rw [WalkMatch_eq, visitAll_ok root pattern _ _ hread hm]
  simp

/-- The result of `WalkMatch` on a readable tree for a valid pattern. -/
theorem WalkMatch_lists_ok (root : FileTree) (pattern : String) (hread : root.Readable)
    (hvalid : ValidPattern pattern) :
    WalkMatch root pattern =
      ((root.entries.filter (root.selects pattern)).map (fun e => relOf e.1), none) :=
  WalkMatch_ok root pattern hread (fun _ _ _ => hvalid _)

/-- Whatever the tree, `WalkMatch` returns the selected entries or an error with
an empty list. -/
theorem WalkMatch_cases (root : FileTree) (pattern : String) :
    WalkMatch root pattern =
        ((root.entries.filter (root.selects pattern)).map (fun e => relOf e.1), none) ∨
      ∃ err, WalkMatch root pattern = ([], some err) := by
  cases hv : (visitAll (WalkMatch.walkFn root pattern) root.entries []).2 with
  | none =>
    have := visitAll_none root pattern _ _ hv
    exact Or.inl (WalkMatch_ok root pattern this.1 this.2)
  | some err =>
    refine Or.inr ⟨err, ?_⟩
    rw [WalkMatch_eq]
    rcases hv2 : visitAll (WalkMatch.walkFn root pattern) root.entries [] with ⟨ms, er⟩
    rw [hv2] at hv
    simp only at hv
    subst hv
    rfl

/-- A failing entry makes `WalkMatch` return an error and an empty list. -/
theorem WalkMatch_fails (root : FileTree) (pattern : String)
    (hfail : ∃ e ∈ root.entries, e.2.isFailure = true) :
    ∃ err, (visitAll (WalkMatch.walkFn root pattern) root.entries []).2 = some err ∧
      WalkMatch root pattern = ([], some err) := by
  obtain ⟨err, herr⟩ := visitAll_fails root pattern root.entries [] hfail
  refine ⟨err, herr, ?_⟩
  rw [WalkMatch_eq]
  rcases hv : visitAll (WalkMatch.walkFn root pattern) root.entries [] with ⟨ms, er⟩
  rw [hv] at herr
  simp only at herr
  subst herr
  rfl

/-! ## The claims about `WalkMatch` -/

/-- C1, as the code has it: on a tree that can be read throughout and for a valid
pattern, `WalkMatch` returns no error and lists, in the order of the walk, the
root-relative paths of exactly the entries that are not directories and whose base
name matches the pattern, at every depth.  A string is listed if and only if it is
the path of such an entry; a directory is never what puts a path on the list,
whatever its name, and a non-directory is, whether it is a regular file or not. -/
theorem WalkMatch_lists_nondirectories (root : FileTree) (pattern : String)
    (hread : root.Readable) (hvalid : ValidPattern pattern) :
    WalkMatch root pattern =
        ((root.entries.filter (root.selects pattern)).map (fun e => relOf e.1), none) ∧
      ∀ r, r ∈ (WalkMatch root pattern).1 ↔
        ∃ e ∈ root.entries, e.2.isNonDir = true ∧ root.matchesAt pattern e.1 = true ∧
          relOf e.1 = r := by
  have h := WalkMatch_ok root pattern hread (fun e _ _ => hvalid _)
  refine ⟨h, ?_⟩
  intro r
  rw [h]
  simp only [List.mem_map, List.mem_filter, FileTree.selects, Bool.and_eq_true]
  constructor
  · rintro ⟨e, ⟨he, h1, h2⟩, rfl⟩
    exact ⟨e, he, h1, h2, rfl⟩
  · rintro ⟨e, he, h1, h2, rfl⟩
    exact ⟨e, ⟨he, h1, h2⟩, rfl⟩

/-- C1 witness: the tree with a directory named `gen.go`. -/
theorem WalkMatch_lists_nondirectories_witness :
    treeNested.Readable ∧ ValidPattern "*.go" ∧
      (WalkMatch treeNested "*.go" =
          ((treeNested.entries.filter (treeNested.selects "*.go")).map (fun e => relOf e.1), none) ∧
        ∀ r, r ∈ (WalkMatch treeNested "*.go").1 ↔
          ∃ e ∈ treeNested.entries, e.2.isNonDir = true ∧
            treeNested.matchesAt "*.go" e.1 = true ∧ relOf e.1 = r) :=
  ⟨by decide, validPattern_of_wellFormed _ (by decide),
    WalkMatch_lists_nondirectories treeNested "*.go" (by decide)
      (validPattern_of_wellFormed _ (by decide))⟩

/-- C1 fails as stated: a symbolic link named `link.go` is listed although the
tree holds no regular file at all; and on a tree with a directory that cannot be
read the regular file `a.go`, which matches, is not listed. -/
theorem WalkMatch_lists_symlink :
    (WalkMatch treeSymlink "*.go" = (["link.go"], none) ∧
      ∀ e ∈ treeSymlink.entries, e.2.isRegular = false) ∧
    ((["a.go"], Node.file .regular) ∈ treeLocked.entries ∧
      treeLocked.matchesAt "*.go" ["a.go"] = true ∧
      (WalkMatch treeLocked "*.go").1 = []) := by
  refine ⟨by decide, ?_, by decide, by decide⟩
  exact List.mem_cons_of_mem _ (List.mem_cons_self _ _)

/-- C2, as the code has it: on a tree that can be read throughout, `WalkMatch` fails
with `ErrBadPattern` and no list exactly when `filepath.Match` reports an error at
the base name of an entry that is not a directory; otherwise it returns the list of
matches and a nil error.  An error is only reported for a syntactically invalid
pattern, but an invalid pattern need not be reported: `Match` is not called on a
tree without a non-directory entry, and it stops at the first chunk that does not
match. -/
theorem WalkMatch_pattern_error (root : FileTree) (pattern : String) (hread : root.Readable) :
    WalkMatch root pattern =
        (if root.entries.any (fun e => e.2.isNonDir &&
            (filepath.Match pattern (filepath.Base root.base e.1)).2.isSome)
          then ([], some .ErrBadPattern)
          else ((root.entries.filter (root.selects pattern)).map (fun e => relOf e.1), none)) ∧
      ((WalkMatch root pattern).2 ≠ none → InvalidPattern pattern) := by
  have herr := visitAll_readable_error root pattern root.entries [] hread
  by_cases hany : root.entries.any (fun e => e.2.isNonDir &&
      (filepath.Match pattern (filepath.Base root.base e.1)).2.isSome) = true
  · rw [if_pos hany] at herr
    rw [if_pos hany]
    have hres : WalkMatch root pattern = ([], some .ErrBadPattern) := by
      rw [WalkMatch_eq]
      rcases hv : visitAll (WalkMatch.walkFn root pattern) root.entries [] with ⟨ms, er⟩
      rw [hv] at herr
      simp only at herr
      subst herr
      rfl
    refine ⟨hres, ?_⟩
    intro _
    obtain ⟨e, _, he⟩ := List.any_eq_true.1 hany
    simp only [Bool.and_eq_true] at he
    apply @invalidPattern_of_error pattern (filepath.Base root.base e.1)
    intro hn
    rw [hn] at he
    simp at he
  · rw [if_neg hany]
    have hok : ∀ e ∈ root.entries, e.2.isNonDir = true →
        (filepath.Match pattern (filepath.Base root.base e.1)).2 = none := by
      intro e he hnd
      cases hm : (filepath.Match pattern (filepath.Base root.base e.1)).2 with
      | none => rfl
      | some er =>
        exact absurd (List.any_eq_true.2 ⟨e, he, by simp [hnd, hm]⟩) hany
    have h := WalkMatch_ok root pattern hread hok
    refine ⟨h, ?_⟩
    rw [h]
    intro hne
    exact absurd rfl hne

/-- C2 witness: the pattern `[` on scenario A, which holds files. -/
theorem WalkMatch_pattern_error_witness :
    treeA.Readable ∧ WalkMatch treeA "[" = ([], some .ErrBadPattern) ∧
      (WalkMatch treeA "[" =
          (if treeA.entries.any (fun e => e.2.isNonDir &&
              (filepath.Match "[" (filepath.Base treeA.base e.1)).2.isSome)
            then ([], some .ErrBadPattern)
            else ((treeA.entries.filter (treeA.selects "[")).map (fun e => relOf e.1), none)) ∧
        ((WalkMatch treeA "[").2 ≠ none → InvalidPattern "[")) :=
  ⟨by decide, by decide, WalkMatch_pattern_error treeA "[" (by decide)⟩

/-- C2 fails as stated: the invalid pattern `[` on a readable tree without a
non-directory entry, and the invalid pattern `a*[` on a readable tree whose only
file is `b`, both give an empty list and a nil error. -/
theorem WalkMatch_invalid_pattern_unreported :
    (InvalidPattern "[" ∧ treeDirsOnly.Readable ∧ WalkMatch treeDirsOnly "[" = ([], none)) ∧
      (InvalidPattern "a*[" ∧ treeOnlyB.Readable ∧ WalkMatch treeOnlyB "a*[" = ([], none)) := by
  decide

/-- C5: whenever the traversal fails, that is the walk comes to an entry `e` that
cannot be read (`lstat` or the directory read fails; at the root `pre` is empty,
below it every entry before `e` in walk order is read and raises no pattern error),
`WalkMatch` returns the traversal error of `e` together with no entries at all,
whatever was collected from the entries before `e`. -/
theorem WalkMatch_traversal_failure (root : FileTree) (pattern : String)
    (pre post : List (RelPath × Node)) (e : RelPath × Node) (errno : Nat)
    (hsplit : root.entries = pre ++ e :: post)
    (hpre : ∀ x ∈ pre, x.2.isFailure = false ∧
      (x.2.isNonDir = true → (filepath.Match pattern (filepath.Base root.base x.1)).2 = none))
    (hfail : e.2.errno? = some errno) :
    WalkMatch root pattern = ([], some (.os errno)) := by
  rw [WalkMatch_eq, hsplit, visitAll_append,
    visitAll_ok root pattern pre [] (fun x hx => (hpre x hx).1) (fun x hx => (hpre x hx).2)]
  simp only [visitAll, callOf_walkFn, hfail]

/-- C5 witness: the matching file `a.go` is visited and collected, then the
directory `z` cannot be read. -/
theorem WalkMatch_traversal_failure_witness :
    treeLocked.entries =
        [([], treeLocked.node), (["a.go"], .file .regular)] ++ (["z"], .unreadable 13) :: [] ∧
      treeLocked.selects "*.go" (["a.go"], .file .regular) = true ∧
      WalkMatch treeLocked "*.go" = ([], some (.os 13)) :=
  ⟨rfl, by decide,
    WalkMatch_traversal_failure treeLocked "*.go"
      [([], treeLocked.node), (["a.go"], .file .regular)] [] (["z"], .unreadable 13) 13 rfl
      (by decide) rfl⟩

/-- C6, as the code has it: on a tree that can be read throughout, if `Match`
reports no match and no error at the base name of every entry that is not a
directory, `WalkMatch` returns the empty list and a nil error. -/
theorem WalkMatch_no_match (root : FileTree) (pattern : String) (hread : root.Readable)
    (hno : ∀ e ∈ root.entries, e.2.isNonDir = true →
      filepath.Match pattern (filepath.Base root.base e.1) = (false, none)) :
    WalkMatch root pattern = ([], none) := by
  have h := WalkMatch_ok root pattern hread (fun e he hnd => by rw [hno e he hnd])
  rw [h]
  have : root.entries.filter (root.selects pattern) = [] := by
    rw [List.filter_eq_nil_iff]
    intro e he
    cases hnd : e.2.isNonDir with
    | false => simp [FileTree.selects, hnd]
    | true => simp [FileTree.selects, FileTree.matchesAt, hno e he hnd]
  rw [this]
  rfl

/-- C6 witness: scenario B holds no `.go` file. -/
theorem WalkMatch_no_match_witness :
    treeB.Readable ∧
      (∀ e ∈ treeB.entries, e.2.isNonDir = true →
        filepath.Match "*.go" (filepath.Base treeB.base e.1) = (false, none)) ∧
      WalkMatch treeB "*.go" = ([], none) :=
  ⟨by decide, by decide, WalkMatch_no_match treeB "*.go" (by decide) (by decide)⟩

/-- C6 fails as stated: a root that can be read and holds no file matching `*.go`,
but a directory below it that cannot be read, gives a traversal error; and on
scenario A no base name matches the pattern `[`, yet the result is the pattern
error. -/
theorem WalkMatch_no_match_error :
    (treeLockedDocs.node.isFailure = false ∧
      (∀ e ∈ treeLockedDocs.entries, e.2.isNonDir = true →
        (filepath.Match "*.go" (filepath.Base treeLockedDocs.base e.1)).1 = false) ∧
      WalkMatch treeLockedDocs "*.go" = ([], some (.os 13))) ∧
    (treeA.Readable ∧
      (∀ e ∈ treeA.entries, e.2.isNonDir = true →
        (filepath.Match "[" (filepath.Base treeA.base e.1)).1 = false) ∧
      WalkMatch treeA "[" = ([], some .ErrBadPattern)) := by
  decide

/-! ## The claims about `main` -/

/-- The archiver is only ever given the result of the walk followed by the fixed names. -/
theorem main_tar_event (w : World) (l : List String) (h : Event.TarWithOptions l ∈ main w) :
    (WalkMatch w.root "*.go").2 = none ∧ l = (WalkMatch w.root "*.go").1 ++ fixedFiles := by
  unfold main at h
  rcases hw : WalkMatch w.root "*.go" with ⟨files, er⟩
  rw [hw] at h
  cases hnc : w.newClient with
  | some err =>
    rw [hnc] at h
    cases hwf : w.writeFile <;> rw [hwf] at h <;> simp at h
  | none =>
    rw [hnc] at h
    cases er with
    | some err =>
      cases hwf : w.writeFile <;> rw [hwf] at h <;> simp at h
    | none =>
      refine ⟨rfl, ?_⟩
      simp only at h
      cases htar : w.tar (files ++ fixedFiles) with
      | some err =>
        rw [htar] at h
        cases hwf : w.writeFile <;> rw [hwf] at h <;> simp at h <;> exact h
      | none =>
        rw [htar] at h
        cases hib : w.imageBuild with
        | some err =>
          rw [hib] at h
          cases hwf : w.writeFile <;> rw [hwf] at h <;> simp at h <;> exact h
        | none =>
          rw [hib] at h
          cases hcp : w.copy <;> rw [hcp] at h <;>
            cases hwf : w.writeFile <;> rw [hwf] at h <;> simp at h <;> exact h

/-- The build request is only submitted after the archiver was called. -/
theorem main_imageBuild_event (w : World) (o : ImageBuildOptions)
    (h : Event.ImageBuild o ∈ main w) : (WalkMatch w.root "*.go").2 = none := by
  unfold main at h
  rcases hw : WalkMatch w.root "*.go" with ⟨files, er⟩
  rw [hw] at h
  cases hnc : w.newClient with
  | some err =>
    rw [hnc] at h
    cases hwf : w.writeFile <;> rw [hwf] at h <;> simp at h
  | none =>
    rw [hnc] at h
    cases er with
    | some err =>
      cases hwf : w.writeFile <;> rw [hwf] at h <;> simp at h
    | none => rfl

/-- C4: when the walk succeeds with the list `files`, every inclusion list that
`main` hands to the archiver is `files` followed by `go.mod`, `go.sum`, `Dockerfile`,
whatever the tree holds, and `main` does hand this list to the archiver once the
client is initialised. -/
theorem main_inclusion_list (w : World) (files : List String)
    (hwalk : WalkMatch w.root "*.go" = (files, none)) :
    (∀ l, Event.TarWithOptions l ∈ main w → l = files ++ ["go.mod", "go.sum", "Dockerfile"]) ∧
      (w.newClient = none →
        Event.TarWithOptions (files ++ ["go.mod", "go.sum", "Dockerfile"]) ∈ main w) := by
  constructor
  · intro l hl
    have := (main_tar_event w l hl).2
    rw [hwalk] at this
    exact this
  · intro hnc
    unfold main
    rw [hnc, hwalk]
    simp only
    cases w.tar (files ++ fixedFiles) <;> cases w.imageBuild <;> cases w.copy <;>
      simp [fixedFiles]

/-- C4 witness: scenario A and scenario B. -/
theorem main_inclusion_list_witness :
    (WalkMatch (quietWorld treeA).root "*.go" = (["main.go", "util/helper.go"], none) ∧
      ((∀ l, Event.TarWithOptions l ∈ main (quietWorld treeA) →
          l = ["main.go", "util/helper.go", "go.mod", "go.sum", "Dockerfile"]) ∧
        ((quietWorld treeA).newClient = none →
          Event.TarWithOptions ["main.go", "util/helper.go", "go.mod", "go.sum", "Dockerfile"] ∈
            main (quietWorld treeA)))) ∧
    (WalkMatch (quietWorld treeB).root "*.go" = ([], none) ∧
      ((∀ l, Event.TarWithOptions l ∈ main (quietWorld treeB) →
          l = ["go.mod", "go.sum", "Dockerfile"]) ∧
        ((quietWorld treeB).newClient = none →
          Event.TarWithOptions ["go.mod", "go.sum", "Dockerfile"] ∈ main (quietWorld treeB)))) :=
  ⟨⟨by decide, main_inclusion_list (quietWorld treeA) ["main.go", "util/helper.go"] (by decide)⟩,
    ⟨by decide, main_inclusion_list (quietWorld treeB) [] (by decide)⟩⟩

/-- C8: when the root cannot be read, `main` never calls the archiver and never
submits the build request, and the last thing it does is `log.Fatal`. -/
theorem main_unreadable_root (w : World) (h : w.root.node.isFailure = true) :
    (∀ ev ∈ main w, (∀ l, ev ≠ .TarWithOptions l) ∧ (∀ o, ev ≠ .ImageBuild o)) ∧
      ∃ err msg, (main w).getLast? = some (.Fatal err msg) := by
  have hfail : ∃ e ∈ w.root.entries, e.2.isFailure = true := by
    refine ⟨([], w.root.node), ?_, h⟩
    unfold FileTree.entries
    cases hn : w.root.node <;> simp [Node.entriesFrom]
  obtain ⟨err, _, herr⟩ := WalkMatch_fails w.root "*.go" hfail
  constructor
  · intro ev hev
    constructor
    · rintro l rfl
      have := (main_tar_event w l hev).1
      rw [herr] at this
      cases this
    · rintro o rfl
      have := main_imageBuild_event w o hev
      rw [herr] at this
      cases this
  · unfold main
    rw [herr]
    cases w.newClient with
    | some e => exact ⟨e, " :unable to init client", by cases w.writeFile <;> simp⟩
    | none => exact ⟨err, " :unable to walk files", by cases w.writeFile <;> simp⟩

/-- C8 witness: a root directory that cannot be read, every other call succeeding. -/
theorem main_unreadable_root_witness :
    (quietWorld treeNoAccess).root.node.isFailure = true ∧
      ((∀ ev ∈ main (quietWorld treeNoAccess),
          (∀ l, ev ≠ .TarWithOptions l) ∧ (∀ o, ev ≠ .ImageBuild o)) ∧
        ∃ err msg, (main (quietWorld treeNoAccess)).getLast? = some (.Fatal err msg)) :=
  ⟨by decide, main_unreadable_root (quietWorld treeNoAccess) (by decide)⟩

/-- C3, what the code does: when the write of the Dockerfile fails, `main` prints
the error and goes on to initialise the client, walk the files, build the archive
and submit the build. -/
theorem main_continues_after_write_failure :
    main (writeFailsWorld treeA) =
      [.WriteFile "Dockerfile" dockerfile 0o777,
        .Printf "Unable to write file: %v" (.os 13),
        .NewClientWithOpts,
        .WalkMatch "*.go",
        .TarWithOptions ["main.go", "util/helper.go", "go.mod", "go.sum", "Dockerfile"],
        .ImageBuild buildOptions,
        .Copy,
        .Close] := by
  rfl

/-! ## The claims about duplicates and subdirectories -/

/-- In a well-formed tree an entry is determined by its path. -/
theorem entries_eq_of_path {n : Node} (hwf : n.WellFormed) {e1 e2 : RelPath × Node}
    (h1 : e1 ∈ n.entriesFrom []) (h2 : e2 ∈ n.entriesFrom []) (h : e1.1 = e2.1) : e1 = e2 :=
  List.inj_on_of_nodup_map (entries_paths_nodup n hwf) h1 h2 h

/-- The paths the walk selects in a well-formed tree are pairwise different. -/
theorem selected_nodup (root : FileTree) (pattern : String) (hwf : root.WellFormed) :
    ((root.entries.filter (root.selects pattern)).map (fun e => relOf e.1)).Nodup := by
  have hnd : root.entries.Nodup := List.Nodup.of_map _ (entries_paths_nodup root.node hwf)
  apply List.Nodup.map_on _ (hnd.filter _)
  intro x hx y hy hxy
  rw [List.mem_filter] at hx hy
  by_cases hroot : root.node.isNonDir = true
  · have hsingle : root.entries = [([], root.node)] := by
      unfold FileTree.entries
      cases hn : root.node with
      | file k => rfl
      | dir es => rw [hn] at hroot; cases hroot
      | unreadable errno => rw [hn] at hroot; cases hroot
      | noStat errno => rw [hn] at hroot; cases hroot
    rw [hsingle] at hx hy
    rw [List.mem_singleton.1 hx.1, List.mem_singleton.1 hy.1]
  · have hne : ∀ e ∈ root.entries, root.selects pattern e = true → e.1 ≠ [] := by
      intro e he hsel h0
      have := entriesFrom_nil_path root.node e he h0
      rw [this] at hsel
      simp only [FileTree.selects, Bool.and_eq_true] at hsel
      exact hroot hsel.1
    have := relOf_inj (hne x hx.1 hx.2) (hne y hy.1 hy.2)
      (entries_names_clean root.node hwf x hx.1) (entries_names_clean root.node hwf y hy.1) hxy
    exact entries_eq_of_path hwf hx.1 hy.1 this

/-- No path selected by `*.go` is one of the three fixed names. -/
theorem selected_not_fixed (root : FileTree) (e : RelPath × Node)
    (hsel : root.selects "*.go" e = true) : relOf e.1 ∉ fixedFiles := by
  simp only [FileTree.selects, FileTree.matchesAt, Bool.and_eq_true] at hsel
  obtain ⟨_, hm⟩ := hsel
  rcases e with ⟨p, n⟩
  cases p with
  | nil =>
    have : relOf [] ∉ fixedFiles := by decide
    exact this
  | cons a rest =>
    cases rest with
    | nil =>
      have hrel : relOf [a] = a := by
        rw [relOf_of_ne_nil (by simp), intercalate_single]
        rfl
      have hbase : filepath.Base root.base [a] = a := by simp [filepath.Base]
      simp only at hm ⊢
      rw [hbase] at hm
      rw [hrel]
      intro hmem
      simp only [fixedFiles, List.mem_cons, List.mem_singleton, List.not_mem_nil, or_false] at hmem
      rcases hmem with rfl | rfl | rfl
      · revert hm; decide
      · revert hm; decide
      · revert hm; decide
    | cons b r =>
      intro hmem
      have hslash : '/' ∈ (relOf (a :: b :: r)).toList := by
        rw [relOf_of_ne_nil (by simp), intercalate_cons_cons]
        simp
      have hfixed : ∀ f ∈ fixedFiles, '/' ∉ f.toList := by decide
      exact hfixed _ hmem hslash

/-- C9: for a tree as a file system holds it (in every directory the names are
pairwise different and hold no slash), the final inclusion list, `WalkMatch(root,
"*.go")` followed by `go.mod`, `go.sum`, `Dockerfile`, holds no path twice, and so
does every list that `main` hands to the archiver. -/
theorem inclusion_list_nodup (w : World) (hwf : w.root.WellFormed) :
    ((WalkMatch w.root "*.go").1 ++ ["go.mod", "go.sum", "Dockerfile"]).Nodup ∧
      ∀ l, Event.TarWithOptions l ∈ main w → l.Nodup := by
  have key : ((WalkMatch w.root "*.go").1 ++ fixedFiles).Nodup := by
    rcases WalkMatch_cases w.root "*.go" with hc | ⟨err, hc⟩
    · rw [hc]
      simp only
      rw [List.nodup_append]
      refine ⟨selected_nodup w.root "*.go" hwf, by decide, ?_⟩
      intro p hp hfix
      obtain ⟨e, he, rfl⟩ := List.mem_map.1 hp
      exact selected_not_fixed w.root e (List.mem_filter.1 he).2 hfix
    · rw [hc]
      have : (([] : List String) ++ fixedFiles).Nodup := by decide
      exact this
  refine ⟨key, ?_⟩
  intro l hl
  rw [(main_tar_event w l hl).2]
  exact key

theorem Base_append (b1 b2 : String) (d q : RelPath) (hq : q ≠ []) :
    filepath.Base b1 (d ++ q) = filepath.Base b2 q := by
  unfold filepath.Base
  rw [List.getLast?_append_of_ne_nil _ hq]
  cases hq2 : q.getLast? with
  | none => rw [List.getLast?_eq_none_iff] at hq2; exact absurd hq2 hq
  | some x => rfl

/-- C9 witness: scenario A. -/
theorem inclusion_list_nodup_witness :
    (quietWorld treeA).root.WellFormed ∧
      (((WalkMatch (quietWorld treeA).root "*.go").1 ++ ["go.mod", "go.sum", "Dockerfile"]).Nodup ∧
        ∀ l, Event.TarWithOptions l ∈ main (quietWorld treeA) → l.Nodup) :=
  ⟨by decide, inclusion_list_nodup (quietWorld treeA) (by decide)⟩

/-- C10: in a well-formed tree that can be read throughout, for a valid pattern and
a directory `d` below the root, the entries of `WalkMatch(root, pattern)` that lie
under `d` are, in the same order, the entries of `WalkMatch(root/d, pattern)`, each
with the root-relative path of `d` and a slash put in front; and whether an entry
below `d` matches is the same seen from the root and seen from `d`. -/
theorem WalkMatch_compositional (root : FileTree) (pattern : String)
    (hwf : root.WellFormed) (hread : root.Readable) (hvalid : ValidPattern pattern)
    (d : RelPath) (entries : List (String × Node))
    (hd : (d, Node.dir entries) ∈ root.entries) (hne : d ≠ []) :
    (WalkMatch root pattern).1.filter (liesUnder (relOf d)) =
        (WalkMatch ⟨filepath.Base root.base d, .dir entries⟩ pattern).1.map
          (fun r => relOf d ++ "/" ++ r) ∧
      ∀ q : RelPath, q ≠ [] →
        root.matchesAt pattern (d ++ q) =
          FileTree.matchesAt ⟨filepath.Base root.base d, .dir entries⟩ pattern q := by
  have hmatch : ∀ q : RelPath, q ≠ [] →
      root.matchesAt pattern (d ++ q) =
        FileTree.matchesAt ⟨filepath.Base root.base d, .dir entries⟩ pattern q := by
    intro q hq
    simp only [FileTree.matchesAt]
    rw [Base_append root.base (filepath.Base root.base d) d q hq]
  refine ⟨?_, hmatch⟩
  -- the entries of the subtree, seen from the root
  have hsub := entries_under_dir root.node hwf d entries hd
  rw [entriesFrom_shift (Node.dir entries) d] at hsub
  have hsubmem : ∀ e ∈ (Node.dir entries).entriesFrom [], (d ++ e.1, e.2) ∈ root.entries := by
    intro e he
    have : (d ++ e.1, e.2) ∈
        ((Node.dir entries).entriesFrom []).map (fun e => (d ++ e.1, e.2)) :=
      List.mem_map.2 ⟨e, he, rfl⟩
    rw [← hsub] at this
    exact (List.mem_filter.1 this).1
  have hreadsub : FileTree.Readable ⟨filepath.Base root.base d, .dir entries⟩ := by
    intro e he
    exact hread (d ++ e.1, e.2) (hsubmem e he)
  rw [(WalkMatch_lists_ok root pattern hread hvalid),
    (WalkMatch_lists_ok ⟨filepath.Base root.base d, .dir entries⟩ pattern hreadsub hvalid)]
  simp only
  -- the root is a directory, so a selected entry is not the root
  have hrootdir : root.node.isNonDir = false := by
    cases hn : root.node with
    | file k =>
      unfold FileTree.entries at hd
      rw [hn] at hd
      simp only [Node.entriesFrom, List.mem_singleton, Prod.mk.injEq] at hd
      exact absurd hd.1 hne
    | dir es => rfl
    | unreadable errno => rfl
    | noStat errno => rfl
  have hselne : ∀ e ∈ root.entries, root.selects pattern e = true → e.1 ≠ [] ∧ e.1 ≠ d := by
    intro e he hsel
    simp only [FileTree.selects, Bool.and_eq_true] at hsel
    constructor
    · intro h0
      have := entriesFrom_nil_path root.node e he h0
      rw [this, hrootdir] at hsel
      exact absurd hsel.1 (by simp)
    · intro hed
      have := entries_eq_of_path hwf he hd hed
      rw [this] at hsel
      simp [Node.isNonDir] at hsel
  have hclean := entries_names_clean root.node hwf
  have hdclean : ∀ name ∈ d, '/' ∉ name.toList := hclean _ hd
  -- step 1: the string test is the test on the paths
  rw [List.filter_map]
  have hfilter : (root.entries.filter (root.selects pattern)).filter
        (liesUnder (relOf d) ∘ fun e => relOf e.1) =
      (root.entries.filter (fun e => d.isPrefixOf e.1)).filter (root.selects pattern) := by
    rw [List.filter_filter, List.filter_filter]
    apply List.filter_congr
    intro e he
    cases hsel : root.selects pattern e with
    | false => simp
    | true =>
      obtain ⟨h1, h2⟩ := hselne e he hsel
      have hl := liesUnder_relOf hne h1 hdclean (hclean e he)
      simp only [Function.comp, Bool.and_true, Bool.true_and]
      cases hp : d.isPrefixOf e.1 with
      | true =>
        rw [hl]
        exact ⟨List.isPrefixOf_iff_prefix.1 hp, fun h => h2 h.symm⟩
      | false =>
        cases hlu : liesUnder (relOf d) (relOf e.1) with
        | false => rfl
        | true =>
          have := (hl.1 hlu).1
          rw [← List.isPrefixOf_iff_prefix, hp] at this
          cases this
  rw [hfilter]
  unfold FileTree.entries
  rw [hsub, List.filter_map, List.map_map, List.map_map]
  -- step 2: selection and path strings inside the subtree
  have hsubne : ∀ e ∈ (Node.dir entries).entriesFrom [],
      FileTree.selects ⟨filepath.Base root.base d, .dir entries⟩ pattern e = true → e.1 ≠ [] := by
    intro e he hsel h0
    have := entriesFrom_nil_path _ e he h0
    rw [this] at hsel
    simp [FileTree.selects, Node.isNonDir] at hsel
  have hsame : ∀ e ∈ (Node.dir entries).entriesFrom [],
      (root.selects pattern ∘ fun e : RelPath × Node => (d ++ e.1, e.2)) e =
        FileTree.selects ⟨filepath.Base root.base d, .dir entries⟩ pattern e := by
    intro e he
    by_cases h0 : e.1 = []
    · have := entriesFrom_nil_path _ e he h0
      rw [this]
      simp [FileTree.selects, Node.isNonDir]
    · simp only [Function.comp, FileTree.selects]
      rw [hmatch e.1 h0]
  rw [List.filter_congr hsame]
  apply List.map_congr_left
  intro e he
  rw [List.mem_filter] at he
  simp only [Function.comp]
  exact relOf_append hne (hsubne e he.1 he.2)

/-- C10 witness: the directory `cmd` of the nested tree. -/
theorem WalkMatch_compositional_witness :
    treeNested.WellFormed ∧ treeNested.Readable ∧ ValidPattern "*.go" ∧
      (["cmd"], Node.dir [("main.go", .file .regular), ("notes.txt", .file .regular)]) ∈
        treeNested.entries ∧
      ((WalkMatch treeNested "*.go").1.filter (liesUnder (relOf ["cmd"])) =
          (WalkMatch ⟨filepath.Base treeNested.base ["cmd"],
            .dir [("main.go", .file .regular), ("notes.txt", .file .regular)]⟩ "*.go").1.map
            (fun r => relOf ["cmd"] ++ "/" ++ r) ∧
        ∀ q : RelPath, q ≠ [] →
          treeNested.matchesAt "*.go" (["cmd"] ++ q) =
            FileTree.matchesAt ⟨filepath.Base treeNested.base ["cmd"],
              .dir [("main.go", .file .regular), ("notes.txt", .file .regular)]⟩ "*.go" q) :=
  ⟨by decide, by decide, validPattern_of_wellFormed _ (by decide), List.mem_cons_of_mem _ (List.mem_cons_self _ _),
    WalkMatch_compositional treeNested "*.go" (by decide) (by decide)
      (validPattern_of_wellFormed _ (by decide)) ["cmd"] _
      (List.mem_cons_of_mem _ (List.mem_cons_self _ _)) (by decide)⟩

/-! ## The write of step 1 and the inclusion list -/

end Secchecker
